import Mathlib

/-!
Verification of the TTCom (TeamTalk Commander) core against its
natural-language specification.

The development shallowly embeds, from the Python sources:
  * `parmline.py` — the wire-grammar codec (`Parser.next`, `Parser._nextString`,
    `KeywordParm` / `IntParm` / `StringParm` / `ListParm`, `TTParms.__str__`);
  * `tt_attrdict.py` — `AttrDict`, the case-insensitive mapping with the
    `chanid` / `channelid` alias rule;
  * `ttapi.py` — the request correlator (`_handleCollection`, `processLine`,
    `sendWithWait`), the diffing updater (`updateParms`), the keep-alive
    cadence (`TeamTalkServerConnection.pinger`), and the reconnect policy
    (`event_kicked`, `_handleRecycling`);
  * `triggers.py` — the magical address match (`Trigger._matchAddress`);
  * `TTComCmd.py` — the silent-level output gate
    (`MyTeamtalkServer.outputFromEvent`).

Strings are modelled as `List Char` (or `String` where convenient); Python's
partial operations (uncaught exceptions) are modelled with `Option`.
-/

namespace TTCom

/-! ## Python string primitives

`pyReplace s pat rep` models Python's `s.replace(pat, rep)`: a single
left-to-right scan replacing non-overlapping occurrences.  The sources only
call it with non-empty patterns; for an empty pattern we return `s` unchanged.
-/

def pyReplace (s pat rep : List Char) : List Char :=
  match s, pat with
  | s, [] => s
  | [], _ => []
  | c :: s', p :: pt =>
    if (p :: pt).isPrefixOf (c :: s') then
      rep ++ pyReplace ((c :: s').drop (p :: pt).length) (p :: pt) rep
    else
      c :: pyReplace s' (p :: pt) rep
termination_by s.length
decreasing_by
  · simp only [List.length_cons, List.length_drop]
    omega
  · simp [List.length_cons]

/-- The whitespace characters checked by `Parser._nextString`
(membership in `" \t\r\n"`); `str.strip()` strips a superset, but the
protocol text only ever meets these four. -/
def isPyWs (c : Char) : Bool :=
  c = ' ' || c = '\t' || c = '\r' || c = '\n'

/-- Python `str.strip()`: remove leading and trailing whitespace. -/
def pyStrip (s : List Char) : List Char :=
  ((s.dropWhile isPyWs).reverse.dropWhile isPyWs).reverse

theorem pyReplace_nil (pat rep : List Char) : pyReplace [] pat rep = [] := by
  cases pat <;> simp [pyReplace]

theorem pyReplace_single (a : Char) (rep : List Char) :
    ∀ s : List Char, pyReplace s [a] rep = s.flatMap fun c => if c = a then rep else [c]
  | [] => by simp [pyReplace]
  | c :: s => by
    rw [pyReplace]
    by_cases h : a = c
    · subst h
      simp [List.isPrefixOf, pyReplace_single a rep s]
    · simp [List.isPrefixOf, Ne.symm h, h, pyReplace_single a rep s]

theorem pyReplace_match2 (p q : Char) (rep s : List Char) :
    pyReplace (p :: q :: s) [p, q] rep = rep ++ pyReplace s [p, q] rep := by
  rw [pyReplace]
  simp [List.isPrefixOf]

theorem pyReplace2_ne1 (p q : Char) (rep : List Char) (c : Char) (s : List Char)
    (h : c ≠ p) : pyReplace (c :: s) [p, q] rep = c :: pyReplace s [p, q] rep := by
  rw [pyReplace]
  simp [List.isPrefixOf, Ne.symm h]

theorem pyReplace2_ne2 (p q : Char) (rep : List Char) (c : Char) (s : List Char)
    (h : c ≠ q) : pyReplace (p :: c :: s) [p, q] rep = p :: pyReplace (c :: s) [p, q] rep := by
  rw [pyReplace]
  simp [List.isPrefixOf, Ne.symm h]

theorem pyReplace2_one (p q : Char) (rep : List Char) (c : Char) :
    pyReplace [c] [p, q] rep = [c] := by
  rw [pyReplace]
  simp [List.isPrefixOf, pyReplace]

theorem pyReplace2_headne (p q : Char) (rep : List Char) (s : List Char)
    (h : s.head? ≠ some q) :
    pyReplace (p :: s) [p, q] rep = p :: pyReplace s [p, q] rep := by
  cases s with
  | nil =>
    rw [pyReplace2_one, pyReplace_nil]
  | cons c s' =>
    refine pyReplace2_ne2 p q rep c s' ?_
    intro hc
    exact h (by simp [hc])

/-! Structural (kernel-computable) forms of `str.replace` for the
one-character and two-character patterns used by the codec, with proofs that
they agree with the general left-to-right scan `pyReplace`. -/

def pyReplace1 (p : Char) (rep : List Char) : List Char → List Char
  | [] => []
  | c :: s => (if c = p then rep else [c]) ++ pyReplace1 p rep s

def pyReplace2 (p q : Char) (rep : List Char) : List Char → List Char
  | [] => []
  | [c] => [c]
  | c :: c' :: s =>
    if c = p ∧ c' = q then rep ++ pyReplace2 p q rep s
    else c :: pyReplace2 p q rep (c' :: s)

theorem pyReplace1_eq (p : Char) (rep : List Char) :
    ∀ s : List Char, pyReplace1 p rep s = pyReplace s [p] rep
  | [] => by simp [pyReplace1, pyReplace]
  | c :: s => by
    rw [pyReplace, pyReplace1]
    by_cases h : c = p
    · simp [List.isPrefixOf, h, pyReplace1_eq p rep s]
    · simp [List.isPrefixOf, h, Ne.symm h, pyReplace1_eq p rep s]

theorem pyReplace2_eq (p q : Char) (rep : List Char) :
    ∀ s : List Char, pyReplace2 p q rep s = pyReplace s [p, q] rep
  | [] => by simp [pyReplace2, pyReplace]
  | [c] => by
    rw [pyReplace2, pyReplace]
    simp [List.isPrefixOf, pyReplace]
  | c :: c' :: s => by
    rw [pyReplace2, pyReplace]
    by_cases h : c = p ∧ c' = q
    · simp [List.isPrefixOf, h.1, h.2, pyReplace2_eq p q rep s]
    · rw [if_neg h, if_neg ?side]
      · rw [pyReplace2_eq p q rep (c' :: s)]
      case side =>
        simp only [List.isPrefixOf, List.isPrefixOf_nil_left, Bool.and_true]
        intro hc
        simp only [Bool.and_eq_true, beq_iff_eq] at hc
        exact h ⟨hc.1.symm, hc.2.symm⟩

/-! ## The `StringParm` escape codec (`parmline.py`, lines 167–182)

`StringParm.__new__` with `rawValue=True` encodes
`raw.replace("\\", "\\\\").replace("\n", "\\n").replace("\r", "\\r")`,
and with `rawValue=False` decodes
`val.replace("\\\\", "\\").replace("\\r", "\r").replace("\\n", "\n")`.
-/

def stringParmEncode (raw : List Char) : List Char :=
  pyReplace1 '\r' ['\\', 'r'] (pyReplace1 '\n' ['\\', 'n'] (pyReplace1 '\\' ['\\', '\\'] raw))

def stringParmDecode (val : List Char) : List Char :=
  pyReplace2 '\\' 'n' ['\n'] (pyReplace2 '\\' 'r' ['\r'] (pyReplace2 '\\' '\\' ['\\'] val))

theorem stringParmEncode_py (raw : List Char) :
    stringParmEncode raw =
      pyReplace (pyReplace (pyReplace raw ['\\'] ['\\', '\\']) ['\n'] ['\\', 'n'])
        ['\r'] ['\\', 'r'] := by
  unfold stringParmEncode
  rw [pyReplace1_eq, pyReplace1_eq, pyReplace1_eq]

theorem stringParmDecode_py (val : List Char) :
    stringParmDecode val =
      pyReplace (pyReplace (pyReplace val ['\\', '\\'] ['\\']) ['\\', 'r'] ['\r'])
        ['\\', 'n'] ['\n'] := by
  unfold stringParmDecode
  rw [pyReplace2_eq, pyReplace2_eq, pyReplace2_eq]

/-! ### Block decomposition of the escape codec

`stringParmEncode` is three single-character `replace` passes, so it acts
independently on each character (`encChar`).  The three decode passes are
two-character `replace`s; each is characterised on the image of the previous
stage.  The decode order (`\\` collapsed before `\r` and `\n`) is the source
of the round-trip failure: it is only invertible on raw strings with no
literal backslash directly followed by `n` or `r` (`okRaw`).
-/

def encChar (c : Char) : List Char :=
  if c = '\\' then ['\\', '\\']
  else if c = '\n' then ['\\', 'n']
  else if c = '\r' then ['\\', 'r']
  else [c]

def g1 (c : Char) : List Char :=
  if c = '\\' then ['\\']
  else if c = '\n' then ['\\', 'n']
  else if c = '\r' then ['\\', 'r']
  else [c]

def g2 (c : Char) : List Char :=
  if c = '\n' then ['\\', 'n'] else [c]

/-- No backslash character directly followed by a literal `n` or `r`. -/
def okRaw : List Char → Bool
  | [] => true
  | [_] => true
  | a :: b :: t => !(a == '\\' && (b == 'n' || b == 'r')) && okRaw (b :: t)

theorem okRaw_tail (a : Char) (t : List Char) (h : okRaw (a :: t) = true) :
    okRaw t = true := by
  cases t with
  | nil => rfl
  | cons b t' =>
    simp [okRaw] at h
    exact h.2

theorem okRaw_head (b : Char) (t : List Char) (h : okRaw ('\\' :: b :: t) = true) :
    b ≠ 'n' ∧ b ≠ 'r' := by
  simp [okRaw] at h
  exact h.1

theorem stringParmEncode_eq_flatMap (s : List Char) :
    stringParmEncode s = s.flatMap encChar := by
  rw [stringParmEncode_py]
  rw [pyReplace_single, pyReplace_single, pyReplace_single, List.flatMap_assoc,
    List.flatMap_assoc]
  congr 1
  funext c
  by_cases h1 : c = '\\'
  · subst h1; decide
  · by_cases h2 : c = '\n'
    · subst h2; decide
    · by_cases h3 : c = '\r'
      · subst h3; decide
      · simp [encChar, h1, h2, h3]

theorem decode1_enc : ∀ s : List Char,
    pyReplace (s.flatMap encChar) ['\\', '\\'] ['\\'] = s.flatMap g1 := by
  intro s
  induction s with
  | nil => simp [pyReplace_nil]
  | cons c s ih =>
    by_cases h1 : c = '\\'
    · subst h1
      have he : (('\\' :: s).flatMap encChar) = '\\' :: '\\' :: s.flatMap encChar := by
        simp [encChar]
      rw [he, pyReplace_match2, ih]
      simp [g1]
    · by_cases h2 : c = '\n'
      · subst h2
        have he : (('\n' :: s).flatMap encChar) = '\\' :: 'n' :: s.flatMap encChar := by
          simp [encChar]
        rw [he, pyReplace2_ne2 _ _ _ _ _ (by decide), pyReplace2_ne1 _ _ _ _ _ (by decide), ih]
        simp [g1]
      · by_cases h3 : c = '\r'
        · subst h3
          have he : (('\r' :: s).flatMap encChar) = '\\' :: 'r' :: s.flatMap encChar := by
            simp [encChar]
          rw [he, pyReplace2_ne2 _ _ _ _ _ (by decide), pyReplace2_ne1 _ _ _ _ _ (by decide), ih]
          simp [g1]
        · have he : ((c :: s).flatMap encChar) = c :: s.flatMap encChar := by
            simp [encChar, h1, h2, h3]
          rw [he, pyReplace2_ne1 _ _ _ _ _ h1, ih]
          simp [g1, h1, h2, h3]

theorem g1_head_ne (c : Char) (hn : c ≠ 'n') (hr : c ≠ 'r') (rest : List Char) :
    ((g1 c ++ rest).head? = some 'n' → False) ∧ ((g1 c ++ rest).head? = some 'r' → False) := by
  by_cases h1 : c = '\\'
  · subst h1; simp [g1]
  · by_cases h2 : c = '\n'
    · subst h2; simp [g1]
    · by_cases h3 : c = '\r'
      · subst h3; simp [g1]
      · simp [g1, h1, h2, h3, hn, hr]

theorem decode2_g1 : ∀ s : List Char, okRaw s = true →
    pyReplace (s.flatMap g1) ['\\', 'r'] ['\r'] = s.flatMap g2 := by
  intro s
  induction s with
  | nil => intro _; simp [pyReplace_nil]
  | cons c s ih =>
    intro h
    by_cases h1 : c = '\\'
    · subst h1
      have hg : (('\\' :: s).flatMap g1) = '\\' :: s.flatMap g1 := by simp [g1]
      rw [hg]
      have hne : (s.flatMap g1).head? ≠ some 'r' := by
        cases s with
        | nil => simp
        | cons b t =>
          have hb := okRaw_head b t h
          simp only [List.flatMap_cons]
          exact (g1_head_ne b hb.1 hb.2 (t.flatMap g1)).2
      rw [pyReplace2_headne _ _ _ _ hne, ih (okRaw_tail _ _ h)]
      simp [g2]
    · by_cases h2 : c = '\n'
      · subst h2
        have hg : (('\n' :: s).flatMap g1) = '\\' :: 'n' :: s.flatMap g1 := by simp [g1]
        rw [hg, pyReplace2_ne2 _ _ _ _ _ (by decide), pyReplace2_ne1 _ _ _ _ _ (by decide),
          ih (okRaw_tail _ _ h)]
        simp [g2]
      · by_cases h3 : c = '\r'
        · subst h3
          have hg : (('\r' :: s).flatMap g1) = '\\' :: 'r' :: s.flatMap g1 := by simp [g1]
          rw [hg, pyReplace_match2, ih (okRaw_tail _ _ h)]
          simp [g2]
        · have hg : ((c :: s).flatMap g1) = c :: s.flatMap g1 := by simp [g1, h1, h2, h3]
          rw [hg, pyReplace2_ne1 _ _ _ _ _ h1, ih (okRaw_tail _ _ h)]
          simp [g2, h2]

theorem g2_head_ne (c : Char) (hn : c ≠ 'n') (rest : List Char) :
    (g2 c ++ rest).head? = some 'n' → False := by
  by_cases h2 : c = '\n'
  · subst h2; simp [g2]
  · simp [g2, h2, hn]

theorem decode3_g2 : ∀ s : List Char, okRaw s = true →
    pyReplace (s.flatMap g2) ['\\', 'n'] ['\n'] = s := by
  intro s
  induction s with
  | nil => intro _; simp [pyReplace_nil]
  | cons c s ih =>
    intro h
    by_cases h1 : c = '\\'
    · subst h1
      have hg : (('\\' :: s).flatMap g2) = '\\' :: s.flatMap g2 := by simp [g2]
      rw [hg]
      have hne : (s.flatMap g2).head? ≠ some 'n' := by
        cases s with
        | nil => simp
        | cons b t =>
          have hb := okRaw_head b t h
          simp only [List.flatMap_cons]
          exact g2_head_ne b hb.1 (t.flatMap g2)
      rw [pyReplace2_headne _ _ _ _ hne, ih (okRaw_tail _ _ h)]
    · by_cases h2 : c = '\n'
      · subst h2
        have hg : (('\n' :: s).flatMap g2) = '\\' :: 'n' :: s.flatMap g2 := by simp [g2]
        rw [hg, pyReplace_match2, ih (okRaw_tail _ _ h)]
        rfl
      · have hg : ((c :: s).flatMap g2) = c :: s.flatMap g2 := by simp [g2, h2]
        rw [hg, pyReplace2_ne1 _ _ _ _ _ h1, ih (okRaw_tail _ _ h)]

/-- Restricted inversion of the `StringParm` escape codec: on raw values with
no backslash directly followed by `n` or `r`, decode inverts encode. -/
theorem stringParm_codec_inverts (s : List Char) (h : okRaw s = true) :
    stringParmDecode (stringParmEncode s) = s := by
  rw [stringParmDecode_py, stringParmEncode_eq_flatMap, decode1_enc, decode2_g1 s h,
    decode3_g2 s h]

/-! ## The typed wire-grammar parser (`parmline.py`, `Parser` / `TTParm` classes)

A parsed frame is a list of typed parameters (`TTParms`): the event keyword
is simply the first `KeywordParm` of the list.  `Parser.next` (strict mode,
`relaxed=False`, as used for protocol lines) is embedded as `pNext`;
`Parser._nextString` as `nextString`; `Parser.getParms` as `getParmsF` (with
an explicit fuel bound; `parseLine` supplies ample fuel).  Python exceptions
(`ValueError` from a malformed line or `int("-")`, `AttributeError` from a
bracketed value without `]`, `IndexError` from a lone trailing backslash or
an empty value after `=`, `StopIteration` escaping `getParms` on an
all-whitespace line) are modelled as `NextRes.err` / `none`.
-/

inductive TTParm where
  | keyword (name : List Char)
  | int (name : List Char) (value : Int)
  | str (name : List Char) (raw : List Char)
  | list (name : List Char) (content : List Char)
  deriving DecidableEq, Repr

/-- Decimal digits of `n`, most significant first (`fuel`-bounded; any
`fuel > n` is enough).  Models Python `str` on a non-negative `int`. -/
def natChars : ℕ → ℕ → List Char
  | 0, _ => []
  | f + 1, n =>
    if n < 10 then [Char.ofNat (48 + n)]
    else natChars f (n / 10) ++ [Char.ofNat (48 + n % 10)]

/-- Python `str` on an `int` (as interpolated by `"{0}={1}".format`). -/
def intToChars (v : Int) : List Char :=
  if v < 0 then '-' :: natChars (v.natAbs + 1) v.natAbs
  else natChars (v.toNat + 1) v.toNat

def natVal (ds : List Char) : ℕ :=
  ds.foldl (fun a c => 10 * a + (c.toNat - 48)) 0

/-- Python `int()` restricted to the shapes produced by the regex
`^[\d-][\d]*` in `Parser.next` (a digit or `-` followed by digits);
`int("-")` raises `ValueError`, modelled as `none`. -/
def pyInt (l : List Char) : Option Int :=
  match l with
  | [] => none
  | c :: ds =>
    if c = '-' then (if ds.isEmpty then none else some (-(natVal ds : ℤ)))
    else some (natVal (c :: ds) : ℤ)

/-- First character of the keyword regex `[a-zA-Z_][a-zA-Z0-9_-]*`. -/
def isIdentStart (c : Char) : Bool := c.isAlpha || c = '_'

/-- Continuation characters of the keyword regex. -/
def isIdentChar (c : Char) : Bool := c.isAlpha || c.isDigit || c = '_' || c = '-'

/-- `re.match(r'^[a-zA-Z_][a-zA-Z0-9_-]*', line)` plus splitting the line
after the match (`Parser.next`, lines 59–65). -/
def matchIdent (l : List Char) : Option (List Char × List Char) :=
  match l with
  | [] => none
  | c :: cs =>
    if isIdentStart c then some (c :: cs.takeWhile isIdentChar, cs.dropWhile isIdentChar)
    else none

/-- The character loop of `Parser._nextString`: a backslash always grabs the
following character (crashing with `IndexError`, i.e. `none`, at end of
input); in quoting mode an unescaped `"` ends the value; outside quoting
mode whitespace ends the value and is pushed back. -/
def nsLoop (quoting : Bool) : List Char → List Char → Option (List Char × List Char)
  | [], acc => some (acc, [])
  | ch :: rest, acc =>
    if ch = '\\' then
      match rest with
      | [] => none
      | c :: rest' => nsLoop quoting rest' (acc ++ ['\\', c])
    else if quoting then
      if ch = '"' then some (acc, rest) else nsLoop quoting rest (acc ++ [ch])
    else
      if isPyWs ch then some (acc, ch :: rest) else nsLoop quoting rest (acc ++ [ch])

/-- `Parser._nextString` (lines 86–111). -/
def nextString (line : List Char) : Option (List Char × List Char) :=
  match line with
  | '"' :: rest => nsLoop true rest []
  | _ => nsLoop false line []

inductive NextRes where
  | stop
  | err
  | ok (p : TTParm) (rest : List Char)
  deriving DecidableEq, Repr

/-- `Parser.next(relaxed=False)` (lines 49–84) after the initial
`line.strip()`: match the keyword, then dispatch on the first value
character: `[` starts a list value, a digit or `-` starts an int value,
anything else is a string value. -/
def pNextCore (line : List Char) : NextRes :=
  if line.isEmpty then .stop
  else
    match matchIdent line with
    | none => .err
    | some (kw, rest) =>
      match rest with
      | [] => .ok (.keyword kw) []
      | c :: rest' =>
        if c ≠ '=' then .ok (.keyword kw) (c :: rest')
        else
          match rest' with
          | [] => .err
          | d :: rest'' =>
            if d = '[' then
              if rest''.any (· = ']') then
                .ok (.list kw (rest''.takeWhile (· ≠ ']'))) ((rest''.dropWhile (· ≠ ']')).tail)
              else .err
            else if d = '-' ∨ d.isDigit then
              match pyInt (d :: rest''.takeWhile Char.isDigit) with
              | some v => .ok (.int kw v) (rest''.dropWhile Char.isDigit)
              | none => .err
            else
              match nextString (d :: rest'') with
              | some (val, remaining) => .ok (.str kw (stringParmDecode val)) remaining
              | none => .err

/-- `Parser.next(relaxed=False)`: `line = self.line.strip()`, then the body. -/
def pNext (line0 : List Char) : NextRes :=
  pNextCore (pyStrip line0)

/-- `Parser.getParms`: iterate `next` while the remaining line is non-empty
(`while self.line:`), collecting the parameters in order. -/
def getParmsF : ℕ → List Char → Option (List TTParm)
  | 0, _ => none
  | f + 1, line =>
    if line.isEmpty then some []
    else
      match pNext line with
      | .ok p rest => (getParmsF f rest).map (p :: ·)
      | _ => none

/-- Parse a whole protocol line into typed parameters (`TTParms(line)`). -/
def parseLine (line : List Char) : Option (List TTParm) :=
  getParmsF (line.length + 1) line

/-- The text of one typed parameter, exactly as built by the `__new__`
methods: `KeywordParm` is the bare keyword, `IntParm` is `kw=<int>`,
`StringParm` is `kw="<encoded>"`, `ListParm` is `kw=[<content>]`. -/
def emitParm : TTParm → List Char
  | .keyword n => n
  | .int n v => n ++ '=' :: intToChars v
  | .str n raw => n ++ '=' :: '"' :: (stringParmEncode raw ++ ['"'])
  | .list n content => n ++ '=' :: '[' :: (content ++ [']'])

/-- `TTParms.__str__`: `" ".join(map(str, self))`. -/
def emitLine (ps : List TTParm) : List Char :=
  List.intercalate [' '] (ps.map emitParm)

/-- Well-formed frames: all names match the keyword regex; string raw values
carry no double quote (the emitter does not escape quotes) and no backslash
followed by `n`/`r` (the decode-order restriction); list contents carry no
`]` (true of the grammar's int lists). -/
def wfName (n : List Char) : Bool :=
  match n with
  | [] => false
  | c :: cs => isIdentStart c && cs.all isIdentChar

def wfParm : TTParm → Bool
  | .keyword n => wfName n
  | .int n _ => wfName n
  | .str n raw => wfName n && okRaw raw && raw.all (· ≠ '"')
  | .list n content => wfName n && content.all (· ≠ ']')

/-! ### Support lemmas for the round-trip proof -/

theorem isIdentChar_not_ws (c : Char) (h : isIdentChar c = true) : isPyWs c = false := by
  by_contra hw
  rw [Bool.not_eq_false] at hw
  simp only [isPyWs, Bool.or_eq_true, decide_eq_true_eq] at hw
  rcases hw with ((h1 | h1) | h1) | h1 <;> subst h1 <;> revert h <;> decide

theorem identStart_not_ws (c : Char) (h : isIdentStart c = true) : isPyWs c = false := by
  by_contra hw
  rw [Bool.not_eq_false] at hw
  simp only [isPyWs, Bool.or_eq_true, decide_eq_true_eq] at hw
  rcases hw with ((h1 | h1) | h1) | h1 <;> subst h1 <;> revert h <;> decide

theorem takeWhile_append_all (p : Char → Bool) (a b : List Char) (h : a.all p = true) :
    (a ++ b).takeWhile p = a ++ b.takeWhile p := by
  induction a with
  | nil => simp
  | cons x xs ih =>
    simp only [List.all_cons, Bool.and_eq_true] at h
    simp [List.takeWhile_cons, h.1, ih h.2]

theorem dropWhile_append_all (p : Char → Bool) (a b : List Char) (h : a.all p = true) :
    (a ++ b).dropWhile p = b.dropWhile p := by
  induction a with
  | nil => simp
  | cons x xs ih =>
    simp only [List.all_cons, Bool.and_eq_true] at h
    simp [List.dropWhile_cons, h.1, ih h.2]

theorem pyStrip_space (l : List Char) : pyStrip (' ' :: l) = pyStrip l := by
  simp [pyStrip, List.dropWhile_cons, isPyWs]

theorem pyStrip_eq_self (s : List Char)
    (h1 : ∀ c, s.head? = some c → isPyWs c = false)
    (h2 : ∀ c, s.getLast? = some c → isPyWs c = false) :
    pyStrip s = s := by
  have hd : s.dropWhile isPyWs = s := by
    cases s with
    | nil => rfl
    | cons a t =>
      rw [List.dropWhile_cons, if_neg]
      rw [h1 a rfl]
      simp
  rw [pyStrip, hd]
  have hr : s.reverse.dropWhile isPyWs = s.reverse := by
    cases hrev : s.reverse with
    | nil => rfl
    | cons a t =>
      rw [List.dropWhile_cons, if_neg]
      have : s.getLast? = some a := by
        rw [← List.head?_reverse, hrev]
        rfl
      rw [h2 a this]
      simp
  rw [hr, List.reverse_reverse]

theorem char_digit_toNat (m : ℕ) (h : m < 10) : (Char.ofNat (48 + m)).toNat = 48 + m := by
  interval_cases m <;> decide

theorem char_digit_isDigit (m : ℕ) (h : m < 10) : (Char.ofNat (48 + m)).isDigit = true := by
  interval_cases m <;> decide

theorem natChars_ne_nil (f n : ℕ) (h : 0 < f) : natChars f n ≠ [] := by
  cases f with
  | zero => omega
  | succ f =>
    rw [natChars]
    by_cases h10 : n < 10
    · simp [h10]
    · simp [h10]

theorem natChars_all_digits : ∀ f n, (natChars f n).all Char.isDigit = true := by
  intro f
  induction f with
  | zero => intro n; rfl
  | succ f ih =>
    intro n
    rw [natChars]
    by_cases h10 : n < 10
    · simp [h10, char_digit_isDigit n h10]
    · simp only [h10, if_false, List.all_append, Bool.and_eq_true]
      refine ⟨ih (n / 10), ?_⟩
      simp [char_digit_isDigit (n % 10) (Nat.mod_lt n (by omega))]

theorem natVal_natChars : ∀ f n, n < f → natVal (natChars f n) = n := by
  intro f
  induction f with
  | zero => intro n h; omega
  | succ f ih =>
    intro n h
    rw [natChars]
    by_cases h10 : n < 10
    · simp only [h10, if_true]
      simp [natVal, char_digit_toNat n h10]
    · simp only [h10, if_false]
      have hdiv : n / 10 < f := by
        have h1 : n / 10 < n := Nat.div_lt_self (by omega) (by omega)
        omega
      have := ih (n / 10) hdiv
      simp only [natVal] at this ⊢
      rw [List.foldl_append, this]
      simp [char_digit_toNat (n % 10) (Nat.mod_lt n (by omega))]
      omega

theorem pyInt_intToChars (v : Int) : pyInt (intToChars v) = some v := by
  by_cases hv : v < 0
  · rw [intToChars, if_pos hv, pyInt]
    rw [if_pos rfl, if_neg (by simpa using natChars_ne_nil _ v.natAbs (by omega))]
    rw [natVal_natChars _ v.natAbs (by omega)]
    congr 1
    omega
  · rw [intToChars, if_neg hv]
    obtain ⟨c, t, hct⟩ : ∃ c t, natChars (v.toNat + 1) v.toNat = c :: t := by
      cases hnc : natChars (v.toNat + 1) v.toNat with
      | nil => exact absurd hnc (natChars_ne_nil _ _ (by omega))
      | cons c t => exact ⟨c, t, rfl⟩
    rw [hct, pyInt]
    have hcd : c.isDigit = true := by
      have := natChars_all_digits (v.toNat + 1) v.toNat
      rw [hct] at this
      simp only [List.all_cons, Bool.and_eq_true] at this
      exact this.1
    rw [if_neg (by intro he; rw [he] at hcd; exact absurd hcd (by decide))]
    rw [← hct, natVal_natChars _ v.toNat (by omega)]
    congr 1
    omega

theorem nsLoop_step_bs (q : Bool) (c : Char) (rest acc : List Char) :
    nsLoop q ('\\' :: c :: rest) acc = nsLoop q rest (acc ++ ['\\', c]) := by
  rw [nsLoop, if_pos rfl]

theorem nsLoop_step_quote (rest acc : List Char) :
    nsLoop true ('"' :: rest) acc = some (acc, rest) := by
  rw [nsLoop.eq_def]
  simp only []
  rw [if_neg (show ¬('"' = '\\') by decide)]
  simp

theorem nsLoop_step_other (c : Char) (rest acc : List Char) (h1 : c ≠ '\\') (h2 : c ≠ '"') :
    nsLoop true (c :: rest) acc = nsLoop true rest (acc ++ [c]) := by
  rw [nsLoop.eq_def]
  simp only []
  rw [if_neg h1]
  simp [h2]

theorem nsLoop_quoted_enc (rest : List Char) :
    ∀ (raw acc : List Char), raw.all (· ≠ '"') = true →
      nsLoop true (raw.flatMap encChar ++ '"' :: rest) acc =
        some (acc ++ raw.flatMap encChar, rest) := by
  intro raw
  induction raw with
  | nil =>
    intro acc _
    simp only [List.flatMap_nil, List.nil_append, List.append_nil]
    exact nsLoop_step_quote rest acc
  | cons c raw ih =>
    intro acc hq
    simp only [List.all_cons, Bool.and_eq_true, decide_eq_true_eq] at hq
    by_cases h1 : c = '\\'
    · subst h1
      have he : encChar '\\' = ['\\', '\\'] := by decide
      simp only [List.flatMap_cons, he, List.cons_append, List.append_assoc, List.nil_append]
      rw [nsLoop_step_bs, ih (acc ++ ['\\', '\\']) hq.2]
      simp
    · by_cases h2 : c = '\n'
      · subst h2
        have he : encChar '\n' = ['\\', 'n'] := by decide
        simp only [List.flatMap_cons, he, List.cons_append, List.append_assoc, List.nil_append]
        rw [nsLoop_step_bs, ih (acc ++ ['\\', 'n']) hq.2]
        simp
      · by_cases h3 : c = '\r'
        · subst h3
          have he : encChar '\r' = ['\\', 'r'] := by decide
          simp only [List.flatMap_cons, he, List.cons_append, List.append_assoc, List.nil_append]
          rw [nsLoop_step_bs, ih (acc ++ ['\\', 'r']) hq.2]
          simp
        · have he : encChar c = [c] := by simp [encChar, h1, h2, h3]
          simp only [List.flatMap_cons, he, List.cons_append, List.singleton_append,
            List.nil_append]
          rw [nsLoop_step_other c _ acc h1 hq.1, ih (acc ++ [c]) hq.2]
          simp

theorem nextString_enc (raw rest : List Char) (h : raw.all (· ≠ '"') = true) :
    nextString ('"' :: (stringParmEncode raw ++ '"' :: rest)) =
      some (stringParmEncode raw, rest) := by
  rw [nextString, stringParmEncode_eq_flatMap]
  rw [nsLoop_quoted_enc rest raw [] h]
  simp [stringParmEncode_eq_flatMap]

theorem stop_at_head (p : Char → Bool) (rest : List Char)
    (h : ∀ c, rest.head? = some c → p c = false) :
    rest.takeWhile p = [] ∧ rest.dropWhile p = rest := by
  cases rest with
  | nil => exact ⟨rfl, rfl⟩
  | cons c r =>
    have := h c rfl
    rw [List.takeWhile_cons, List.dropWhile_cons]
    simp [this]

theorem sep_head_not (rest : List Char) (hsep : rest = [] ∨ ∃ r, rest = ' ' :: r)
    (p : Char → Bool) (hp : p ' ' = false) :
    ∀ c, rest.head? = some c → p c = false := by
  intro c hc
  rcases hsep with h | ⟨r, h⟩ <;> subst h
  · simp at hc
  · simp at hc
    rw [← hc]
    exact hp

theorem matchIdent_emit (n rest : List Char) (hn : wfName n = true)
    (hstop : ∀ c, rest.head? = some c → isIdentChar c = false) :
    matchIdent (n ++ rest) = some (n, rest) := by
  match n, hn with
  | c :: cs, hn =>
    simp only [wfName, Bool.and_eq_true] at hn
    rw [List.cons_append, matchIdent, if_pos hn.1]
    have h1 := takeWhile_append_all isIdentChar cs rest hn.2
    have h2 := dropWhile_append_all isIdentChar cs rest hn.2
    have h3 := stop_at_head isIdentChar rest hstop
    rw [h1, h2, h3.1, h3.2]
    simp

end TTCom

namespace TTCom

theorem digit_not_ws (c : Char) (h : c.isDigit = true) : isPyWs c = false := by
  by_contra hw
  rw [Bool.not_eq_false] at hw
  simp only [isPyWs, Bool.or_eq_true, decide_eq_true_eq] at hw
  rcases hw with ((h1 | h1) | h1) | h1 <;> subst h1 <;> revert h <;> decide

theorem intToChars_shape (v : Int) :
    ∃ d t, intToChars v = d :: t ∧ (d = '-' ∨ d.isDigit = true) ∧ t.all Char.isDigit = true := by
  by_cases hv : v < 0
  · rw [intToChars, if_pos hv]
    exact ⟨'-', _, rfl, Or.inl rfl, natChars_all_digits _ _⟩
  · rw [intToChars, if_neg hv]
    obtain ⟨c, t, hct⟩ : ∃ c t, natChars (v.toNat + 1) v.toNat = c :: t := by
      cases hnc : natChars (v.toNat + 1) v.toNat with
      | nil => exact absurd hnc (natChars_ne_nil _ _ (by omega))
      | cons c t => exact ⟨c, t, rfl⟩
    have hall := natChars_all_digits (v.toNat + 1) v.toNat
    rw [hct] at hall
    simp only [List.all_cons, Bool.and_eq_true] at hall
    exact ⟨c, t, hct, Or.inr hall.1, hall.2⟩

theorem pNextCore_keyword (n rest : List Char) (hn : wfName n = true)
    (hsep : rest = [] ∨ ∃ r, rest = ' ' :: r) :
    pNextCore (n ++ rest) = .ok (.keyword n) rest := by
  obtain ⟨c, cs, rfl⟩ : ∃ c cs, n = c :: cs := by
    cases n with
    | nil => exact absurd hn (by simp [wfName])
    | cons c cs => exact ⟨c, cs, rfl⟩
  rw [pNextCore, if_neg (by simp)]
  rw [matchIdent_emit _ rest hn (sep_head_not rest hsep isIdentChar (by decide))]
  rcases hsep with h | ⟨r, h⟩ <;> subst h
  · rfl
  · simp only []
    rw [if_pos (show (' ' ≠ '=') by decide)]

end TTCom

namespace TTCom

theorem pNextCore_int (n rest : List Char) (v : Int) (hn : wfName n = true)
    (hsep : rest = [] ∨ ∃ r, rest = ' ' :: r) :
    pNextCore (n ++ '=' :: (intToChars v ++ rest)) = .ok (.int n v) rest := by
  obtain ⟨c0, cs, hn0⟩ : ∃ c0 cs, n = c0 :: cs := by
    cases n with
    | nil => exact absurd hn (by simp [wfName])
    | cons c0 cs => exact ⟨c0, cs, rfl⟩
  rw [pNextCore, if_neg (by subst hn0; simp)]
  rw [matchIdent_emit n _ hn (by intro c hc; simp at hc; rw [← hc]; decide)]
  simp only []
  rw [if_neg (by simp)]
  obtain ⟨d, t, hdt, hd, ht⟩ := intToChars_shape v
  rw [hdt, List.cons_append]
  simp only []
  have hdnotbr : ¬(d = '[') := by
    rcases hd with h | h
    · subst h; decide
    · intro he; rw [he] at h; exact absurd h (by decide)
  rw [if_neg hdnotbr, if_pos hd]
  have htw := takeWhile_append_all Char.isDigit t rest ht
  have hdw := dropWhile_append_all Char.isDigit t rest ht
  have hstop := stop_at_head Char.isDigit rest (sep_head_not rest hsep Char.isDigit (by decide))
  rw [htw, hdw, hstop.1, hstop.2, List.append_nil, ← hdt, pyInt_intToChars v]

theorem pNextCore_str (n raw rest : List Char) (hn : wfName n = true)
    (hraw : okRaw raw = true) (hq : raw.all (· ≠ '"') = true)
    (_hsep : rest = [] ∨ ∃ r, rest = ' ' :: r) :
    pNextCore (n ++ '=' :: '"' :: (stringParmEncode raw ++ ['"']) ++ rest) =
      .ok (.str n raw) rest := by
  obtain ⟨c0, cs, hn0⟩ : ∃ c0 cs, n = c0 :: cs := by
    cases n with
    | nil => exact absurd hn (by simp [wfName])
    | cons c0 cs => exact ⟨c0, cs, rfl⟩
  have hassoc : n ++ '=' :: '"' :: (stringParmEncode raw ++ ['"']) ++ rest =
      n ++ '=' :: '"' :: (stringParmEncode raw ++ '"' :: rest) := by
    simp
  rw [hassoc, pNextCore, if_neg (by subst hn0; simp)]
  rw [matchIdent_emit n _ hn (by intro c hc; simp at hc; rw [← hc]; decide)]
  simp only []
  rw [if_neg (by simp)]
  rw [if_neg (by decide), if_neg (by decide)]
  rw [nextString_enc raw rest hq]
  simp only []
  rw [stringParm_codec_inverts raw hraw]

theorem pNextCore_list (n content rest : List Char) (hn : wfName n = true)
    (hcon : content.all (· ≠ ']') = true)
    (_hsep : rest = [] ∨ ∃ r, rest = ' ' :: r) :
    pNextCore (n ++ '=' :: '[' :: (content ++ [']']) ++ rest) =
      .ok (.list n content) rest := by
  obtain ⟨c0, cs, hn0⟩ : ∃ c0 cs, n = c0 :: cs := by
    cases n with
    | nil => exact absurd hn (by simp [wfName])
    | cons c0 cs => exact ⟨c0, cs, rfl⟩
  have hassoc : n ++ '=' :: '[' :: (content ++ [']']) ++ rest =
      n ++ '=' :: '[' :: (content ++ ']' :: rest) := by
    simp
  rw [hassoc, pNextCore, if_neg (by subst hn0; simp)]
  rw [matchIdent_emit n _ hn (by intro c hc; simp at hc; rw [← hc]; decide)]
  simp only []
  rw [if_neg (by simp)]
  rw [if_pos trivial]
  have hany : (content ++ ']' :: rest).any (· = ']') = true := by
    simp
  rw [if_pos hany]
  have hne : content.all (fun c => c ≠ ']') = true := hcon
  have htw := takeWhile_append_all (· ≠ ']') content (']' :: rest) hcon
  have hdw := dropWhile_append_all (· ≠ ']') content (']' :: rest) hcon
  rw [htw, hdw]
  rw [List.takeWhile_cons, List.dropWhile_cons]
  simp

end TTCom


namespace TTCom

theorem wfName_shape (n : List Char) (hn : wfName n = true) :
    ∃ c cs, n = c :: cs ∧ isIdentStart c = true ∧ cs.all isIdentChar = true := by
  cases n with
  | nil => exact absurd hn (by simp [wfName])
  | cons c cs =>
    simp only [wfName, Bool.and_eq_true] at hn
    exact ⟨c, cs, rfl, hn.1, hn.2⟩

theorem name_mem_not_ws (n : List Char) (hn : wfName n = true) (c : Char) (hc : c ∈ n) :
    isPyWs c = false := by
  obtain ⟨c0, cs, rfl, hs, hall⟩ := wfName_shape n hn
  rcases List.mem_cons.mp hc with h | h
  · subst h; exact identStart_not_ws c hs
  · exact isIdentChar_not_ws c (List.all_eq_true.mp hall c h)

theorem emitParm_head_start (p : TTParm) (hw : wfParm p = true) :
    ∃ c t, emitParm p = c :: t ∧ isIdentStart c = true := by
  cases p with
  | keyword n =>
    obtain ⟨c, cs, rfl, hs, _⟩ := wfName_shape n (by simpa [wfParm] using hw)
    exact ⟨c, cs, rfl, hs⟩
  | int n v =>
    simp only [wfParm] at hw
    obtain ⟨c, cs, rfl, hs, _⟩ := wfName_shape n hw
    exact ⟨c, cs ++ '=' :: intToChars v, by simp [emitParm], hs⟩
  | str n raw =>
    simp only [wfParm, Bool.and_eq_true] at hw
    obtain ⟨c, cs, rfl, hs, _⟩ := wfName_shape n hw.1.1
    exact ⟨c, cs ++ '=' :: '"' :: (stringParmEncode raw ++ ['"']), by simp [emitParm], hs⟩
  | list n content =>
    simp only [wfParm, Bool.and_eq_true] at hw
    obtain ⟨c, cs, rfl, hs, _⟩ := wfName_shape n hw.1
    exact ⟨c, cs ++ '=' :: '[' :: (content ++ [']']), by simp [emitParm], hs⟩

theorem emitParm_last_not_ws (p : TTParm) (hw : wfParm p = true) :
    ∀ c, (emitParm p).getLast? = some c → isPyWs c = false := by
  intro c' hc'
  cases p with
  | keyword n =>
    simp only [emitParm] at hc'
    refine name_mem_not_ws n (by simpa [wfParm] using hw) c' ?_
    exact List.mem_of_mem_getLast? (by simp [Option.mem_def, hc'])
  | int n v =>
    simp only [wfParm] at hw
    simp only [emitParm] at hc'
    have hmem : c' ∈ n ++ '=' :: intToChars v :=
      List.mem_of_mem_getLast? (by simp [Option.mem_def, hc'])
    simp only [List.mem_append, List.mem_cons] at hmem
    rcases hmem with h | h | h
    · exact name_mem_not_ws n hw c' h
    · subst h; decide
    · obtain ⟨d, t, hdt, hd, ht⟩ := intToChars_shape v
      rw [hdt] at h
      rcases List.mem_cons.mp h with h2 | h2
      · subst h2
        rcases hd with h3 | h3
        · subst h3; decide
        · exact digit_not_ws c' h3
      · exact digit_not_ws c' (List.all_eq_true.mp ht c' h2)
  | str n raw =>
    have : (emitParm (.str n raw)).getLast? = some '"' := by
      show (n ++ '=' :: '"' :: (stringParmEncode raw ++ ['"'])).getLast? = some '"'
      have : n ++ '=' :: '"' :: (stringParmEncode raw ++ ['"']) =
          (n ++ '=' :: '"' :: stringParmEncode raw) ++ ['"'] := by simp
      rw [this, List.getLast?_concat]
    rw [this] at hc'
    injection hc' with h
    subst h
    decide
  | list n content =>
    have : (emitParm (.list n content)).getLast? = some ']' := by
      show (n ++ '=' :: '[' :: (content ++ [']'])).getLast? = some ']'
      have : n ++ '=' :: '[' :: (content ++ [']']) =
          (n ++ '=' :: '[' :: content) ++ [']'] := by simp
      rw [this, List.getLast?_concat]
    rw [this] at hc'
    injection hc' with h
    subst h
    decide

end TTCom

namespace TTCom

theorem pNext_emit (p : TTParm) (rest : List Char) (hw : wfParm p = true)
    (hsep : rest = [] ∨ ∃ r, rest = ' ' :: r)
    (htr : ∀ c, (emitParm p ++ rest).getLast? = some c → isPyWs c = false) :
    pNext (emitParm p ++ rest) = .ok p rest := by
  have hstrip : pyStrip (emitParm p ++ rest) = emitParm p ++ rest := by
    refine pyStrip_eq_self _ ?_ htr
    intro c hc
    obtain ⟨c0, t0, he, hs⟩ := emitParm_head_start p hw
    rw [he] at hc
    simp at hc
    rw [← hc]
    exact identStart_not_ws c0 hs
  rw [pNext, hstrip]
  cases p with
  | keyword n =>
    exact pNextCore_keyword n rest (by simpa [wfParm] using hw) hsep
  | int n v =>
    simp only [wfParm] at hw
    have : emitParm (.int n v) ++ rest = n ++ '=' :: (intToChars v ++ rest) := by
      simp [emitParm]
    rw [this]
    exact pNextCore_int n rest v hw hsep
  | str n raw =>
    simp only [wfParm, Bool.and_eq_true] at hw
    have : emitParm (.str n raw) ++ rest =
        n ++ '=' :: '"' :: (stringParmEncode raw ++ ['"']) ++ rest := by
      simp [emitParm]
    rw [this]
    exact pNextCore_str n raw rest hw.1.1 hw.1.2 hw.2 hsep
  | list n content =>
    simp only [wfParm, Bool.and_eq_true] at hw
    have : emitParm (.list n content) ++ rest =
        n ++ '=' :: '[' :: (content ++ [']']) ++ rest := by
      simp [emitParm]
    rw [this]
    exact pNextCore_list n content rest hw.1 hw.2 hsep

theorem emitLine_nil : emitLine [] = [] := rfl

theorem emitLine_one (p : TTParm) : emitLine [p] = emitParm p := by
  simp [emitLine, List.intercalate, List.intersperse]

theorem emitLine_cons2 (p q : TTParm) (ps : List TTParm) :
    emitLine (p :: q :: ps) = emitParm p ++ ' ' :: emitLine (q :: ps) := by
  simp [emitLine, List.intercalate, List.intersperse]

end TTCom

namespace TTCom

theorem emitParm_ne_nil (p : TTParm) (hw : wfParm p = true) : emitParm p ≠ [] := by
  obtain ⟨c, t, he, _⟩ := emitParm_head_start p hw
  rw [he]
  simp

theorem emitLine_last_not_ws : ∀ ps : List TTParm, (∀ p ∈ ps, wfParm p = true) →
    ∀ c, (emitLine ps).getLast? = some c → isPyWs c = false := by
  intro ps
  induction ps with
  | nil => intro _ c hc; simp [emitLine_nil] at hc
  | cons p ps ih =>
    intro hall c hc
    cases ps with
    | nil =>
      rw [emitLine_one] at hc
      exact emitParm_last_not_ws p (hall p (by simp)) c hc
    | cons q ps' =>
      rw [emitLine_cons2, List.getLast?_append] at hc
      have hne : emitLine (q :: ps') ≠ [] := by
        cases hql : emitLine (q :: ps') with
        | nil =>
          have := emitParm_ne_nil q (hall q (by simp))
          cases ps' with
          | nil => rw [emitLine_one] at hql; exact absurd hql this
          | cons r ps'' =>
            rw [emitLine_cons2] at hql
            exact absurd hql (by simp [this])
        | cons x xs => simp
      have hlast : (' ' :: emitLine (q :: ps')).getLast? = (emitLine (q :: ps')).getLast? := by
        cases hql : emitLine (q :: ps') with
        | nil => exact absurd hql hne
        | cons x xs => simp [List.getLast?_cons_cons]
      rw [hlast] at hc
      cases hgl : (emitLine (q :: ps')).getLast? with
      | none =>
        rw [hgl] at hc
        simp at hc
        exact emitParm_last_not_ws p (hall p (by simp)) c hc
      | some d =>
        rw [hgl] at hc
        simp at hc
        subst hc
        exact ih (fun r hr => hall r (by simp [hr])) d hgl

end TTCom

namespace TTCom

theorem pNext_space (l : List Char) : pNext (' ' :: l) = pNext l := by
  rw [pNext, pNext, pyStrip_space]

theorem getParmsF_space (f : ℕ) (l : List Char) (hl : l ≠ []) :
    getParmsF f (' ' :: l) = getParmsF f l := by
  cases f with
  | zero => rfl
  | succ f =>
    rw [getParmsF, getParmsF]
    rw [if_neg (by simp), if_neg (by simp [hl])]
    rw [pNext_space]

theorem emitLine_ne_nil (p : TTParm) (ps : List TTParm)
    (hw : wfParm p = true) : emitLine (p :: ps) ≠ [] := by
  cases ps with
  | nil => rw [emitLine_one]; exact emitParm_ne_nil p hw
  | cons q ps' =>
    rw [emitLine_cons2]
    simp [emitParm_ne_nil p hw]

theorem getParmsF_emit : ∀ (ps : List TTParm) (f : ℕ),
    (∀ p ∈ ps, wfParm p = true) → ps.length < f →
    getParmsF f (emitLine ps) = some ps := by
  intro ps
  induction ps with
  | nil =>
    intro f _ hf
    cases f with
    | zero => omega
    | succ f => rw [emitLine_nil, getParmsF, if_pos (by simp)]
  | cons p ps ih =>
    intro f hall hf
    cases f with
    | zero => omega
    | succ f =>
      have hwp : wfParm p = true := hall p (by simp)
      rw [getParmsF, if_neg (by simp [emitLine_ne_nil p ps hwp])]
      have hsplit : emitLine (p :: ps) = emitParm p ++
          (if ps.isEmpty then [] else ' ' :: emitLine ps) := by
        cases ps with
        | nil => simp [emitLine_one]
        | cons q ps' => simp [emitLine_cons2]
      have hsep : (if ps.isEmpty then ([] : List Char) else ' ' :: emitLine ps) = [] ∨
          ∃ r, (if ps.isEmpty then ([] : List Char) else ' ' :: emitLine ps) = ' ' :: r := by
        cases ps with
        | nil => exact Or.inl (by simp)
        | cons q ps' => exact Or.inr ⟨emitLine (q :: ps'), by simp⟩
      have htr : ∀ c, (emitParm p ++
          (if ps.isEmpty then ([] : List Char) else ' ' :: emitLine ps)).getLast? = some c →
          isPyWs c = false := by
        intro c hc
        rw [← hsplit] at hc
        exact emitLine_last_not_ws (p :: ps) hall c hc
      rw [hsplit, pNext_emit p _ hwp hsep htr]
      cases ps with
      | nil =>
        simp only [List.isEmpty_nil, if_true]
        cases f with
        | zero => simp at hf
        | succ f' => rw [getParmsF, if_pos (by simp)]; rfl
      | cons q ps' =>
        simp only [List.isEmpty_cons, Bool.false_eq_true, if_false]
        rw [getParmsF_space f _ (emitLine_ne_nil q ps' (hall q (by simp)))]
        rw [ih f (fun r hr => hall r (by simp [hr])) (by simp at hf ⊢; omega)]
        rfl

theorem emitLine_length_ge : ∀ ps : List TTParm, (∀ p ∈ ps, wfParm p = true) →
    ps.length ≤ (emitLine ps).length := by
  intro ps
  induction ps with
  | nil => simp [emitLine_nil]
  | cons p ps ih =>
    intro hall
    obtain ⟨c, t, he, _⟩ := emitParm_head_start p (hall p (by simp))
    cases ps with
    | nil =>
      rw [emitLine_one, he]
      simp
    | cons q ps' =>
      rw [emitLine_cons2, he]
      have := ih (fun r hr => hall r (by simp [hr]))
      simp only [List.length_cons, List.length_append] at this ⊢
      omega

theorem parseLine_emitLine (ps : List TTParm) (h : ∀ p ∈ ps, wfParm p = true) :
    parseLine (emitLine ps) = some ps := by
  rw [parseLine]
  exact getParmsF_emit ps _ h (by have := emitLine_length_ge ps h; omega)

end TTCom

namespace TTCom

/-! ## Claim C1 — codec round-trip -/

/-- C1 counterexample: the codec round-trip fails as stated.  The well-formed
frame `user msg="<backslash>n"` (string parameter with raw value backslash-n)
emits as `user msg="\\n"`; re-parsing that text yields the raw value linefeed
instead of backslash-n, because `StringParm` decodes by collapsing `\\` before
expanding `\n`. -/
theorem spec_C1_counterexample :
    stringParmDecode (stringParmEncode ['\\', 'n']) = ['\n'] ∧
    ('\n' : Char) ≠ '\\' ∧
    emitLine [.keyword "user".toList, .str "msg".toList ['\\', 'n']] =
      "user msg=\"\\\\n\"".toList ∧
    parseLine (emitLine [.keyword "user".toList, .str "msg".toList ['\\', 'n']]) =
      some [.keyword "user".toList, .str "msg".toList ['\n']] ∧
    parseLine (emitLine [.keyword "user".toList, .str "msg".toList ['\\', 'n']]) ≠
      some [.keyword "user".toList, .str "msg".toList ['\\', 'n']] := by
  refine ⟨by decide, by decide, by decide, by decide, by decide⟩

/-- C1 (amended): for every well-formed frame whose string parameters' raw
values contain no double quote and no backslash directly followed by `n` or
`r`, and whose list parameters' content contains no `]` (`wfParm`), parsing
the emitted text yields exactly the original typed frame; and on such raw
string values the escape decode inverts the escape encode. -/
theorem spec_C1_roundtrip :
    (∀ ps : List TTParm, (∀ p ∈ ps, wfParm p = true) → parseLine (emitLine ps) = some ps) ∧
    (∀ raw : List Char, okRaw raw = true → stringParmDecode (stringParmEncode raw) = raw) :=
  ⟨parseLine_emitLine, stringParm_codec_inverts⟩

/-- C1 witness: a concrete frame exercising all four parameter kinds
round-trips, and a concrete raw string with backslash, blank, linefeed and
carriage return survives the escape codec. -/
theorem spec_C1_roundtrip_witness :
    parseLine (emitLine [.keyword "login".toList, .str "username".toList "b b".toList,
        .int "udpport".toList 10333, .int "z".toList (-7), .list "subs".toList "1,2".toList]) =
      some [.keyword "login".toList, .str "username".toList "b b".toList,
        .int "udpport".toList 10333, .int "z".toList (-7), .list "subs".toList "1,2".toList] ∧
    stringParmDecode (stringParmEncode "a\\b \n\r".toList) = "a\\b \n\r".toList :=
  ⟨spec_C1_roundtrip.1 _ (by decide), spec_C1_roundtrip.2 _ (by decide)⟩

end TTCom

namespace TTCom

/-! ## AttrDict (tt_attrdict.py)

An `AttrDict` is a Python `dict` with case-insensitive keys, attribute
access, and the `chanid`/`channelid` alias rule.  It is modelled as an
insertion-ordered association list without duplicate keys (the invariant of
a Python dict).  `dictSet` is plain `dict` assignment: overwrite in place if
the key is present, else append; `adLookup` is plain `dict` lookup.
-/

abbrev AttrDict := List (String × String)

/-- Python `str.lower()` (the keys involved are ASCII): lower-case every
character. -/
def pyLower (s : String) : String := ⟨s.data.map Char.toLower⟩

/-- Plain `dict` lookup. -/
def adLookup : AttrDict → String → Option String
  | [], _ => none
  | (k', v') :: d, k => if k' = k then some v' else adLookup d k

def adContains (d : AttrDict) (k : String) : Bool := (adLookup d k).isSome

/-- Plain `dict.__setitem__`: overwrite the value in place when the key is
present, else append the pair. -/
def dictSet : AttrDict → String → String → AttrDict
  | [], k, v => [(k, v)]
  | (k', v') :: d, k, v => if k' = k then (k, v) :: d else (k', v') :: dictSet d k v

/-- `AttrDict.__setitem__` (line 90): store under the lowercased key.  It
performs no `chanid`/`channelid` canonicalisation. -/
def adSetItem (d : AttrDict) (k v : String) : AttrDict := dictSet d (pyLower k) v

/-- The `chanid`/`channelid` alias partner of a key. -/
def chanAlias (k : String) : String :=
  if k = "channelid" then "chanid"
  else if k = "chanid" then "channelid"
  else k

/-- `AttrDict.__getitem__` (lines 81–88): look up the lowercased key; on a
miss, look up its alias partner. -/
def adGetItem (d : AttrDict) (k : String) : Option String :=
  match adLookup d (pyLower k) with
  | some v => some v
  | none => adLookup d (chanAlias (pyLower k))

/-- `AttrDict.__getattr__` (lines 30–38) on a non-underscore name:
`__getitem__`, with a final miss yielding `None` (the second alias attempt
in the `except` block repeats lookups `__getitem__` already tried). -/
def adGetAttr (d : AttrDict) (k : String) : Option String := adGetItem d k

/-- `AttrDict.__setattr__` (lines 40–52) on a non-underscore name with a
non-`None` value: redirect `channelid` to `chanid` when `chanid` is already
stored (and vice versa), then `__setitem__`. -/
def adSetAttr (d : AttrDict) (k v : String) : AttrDict :=
  let k1 := if k = "channelid" && adContains d "chanid" then "chanid"
    else if k = "chanid" && adContains d "channelid" then "channelid"
    else k
  adSetItem d k1 v

/-- At most one of the two alias keys is stored. -/
def adAtMostOne (d : AttrDict) : Bool :=
  !(adContains d "chanid" && adContains d "channelid")

theorem adLookup_dictSet (k v j : String) :
    ∀ d : AttrDict, adLookup (dictSet d k v) j = if j = k then some v else adLookup d j := by
  intro d
  induction d with
  | nil =>
    by_cases h : j = k
    · subst h; simp [dictSet, adLookup]
    · simp [dictSet, adLookup, h, Ne.symm h]
  | cons p d ih =>
    obtain ⟨k', v'⟩ := p
    rw [dictSet]
    by_cases h1 : k' = k
    · subst h1
      rw [if_pos rfl]
      by_cases h2 : j = k'
      · subst h2
        rw [adLookup, adLookup, if_pos rfl, if_pos rfl]
      · rw [adLookup, adLookup, if_neg (Ne.symm h2), if_neg (Ne.symm h2), if_neg h2]
    · rw [if_neg h1]
      by_cases h2 : j = k'
      · subst h2
        rw [adLookup, adLookup, if_pos rfl, if_pos rfl, if_neg h1]
      · rw [adLookup, adLookup, if_neg (Ne.symm h2), if_neg (Ne.symm h2), ih]

theorem adContains_dictSet (k v j : String) (d : AttrDict) :
    adContains (dictSet d k v) j = ((j = k : Bool) || adContains d j) := by
  rw [adContains, adLookup_dictSet]
  by_cases h : j = k <;> simp [h, adContains]

end TTCom

namespace TTCom

/-! ## Claim C4 — chanid/channelid alias equivalence -/

/-- C4 counterexample: item-access writes perform no alias canonicalisation
(`__setitem__` only lowercases), so `d["chanid"]="1"; d["channelid"]="2"`
stores both keys, and the two reads then return different values. -/
theorem spec_C4_counterexample :
    adGetItem (adSetItem (adSetItem [] "chanid" "1") "channelid" "2") "chanid" = some "1" ∧
    adGetItem (adSetItem (adSetItem [] "chanid" "1") "channelid" "2") "channelid" = some "2" ∧
    ("1" : String) ≠ "2" ∧
    adContains (adSetItem (adSetItem [] "chanid" "1") "channelid" "2") "chanid" = true ∧
    adContains (adSetItem (adSetItem [] "chanid" "1") "channelid" "2") "channelid" = true := by
  refine ⟨by decide, by decide, by decide, by decide, by decide⟩

/-- C4 (amended): reading `chanid` equals reading `channelid` (for both item
and attribute access) whenever at most one of the two keys is stored;
attribute-access writes canonicalise to the already-stored alias key and
preserve the at-most-one-key property; and key lookup is case-insensitive.
Item-access writes, however, store under the lowercased literal key without
canonicalisation (see the counterexample). -/
theorem spec_C4_alias (d : AttrDict) (v : String) :
    (adAtMostOne d = true →
      adGetItem d "chanid" = adGetItem d "channelid" ∧
      adGetAttr d "chanid" = adGetAttr d "channelid") ∧
    (adContains d "chanid" = true → adSetAttr d "channelid" v = adSetItem d "chanid" v) ∧
    (adContains d "channelid" = true → adSetAttr d "chanid" v = adSetItem d "channelid" v) ∧
    (adAtMostOne d = true → adAtMostOne (adSetAttr d "chanid" v) = true ∧
      adAtMostOne (adSetAttr d "channelid" v) = true) ∧
    adGetItem d "ChanID" = adGetItem d "chanid" := by
  have e1 : pyLower "chanid" = "chanid" := rfl
  have e2 : pyLower "channelid" = "channelid" := rfl
  have e3 : chanAlias "chanid" = "channelid" := rfl
  have e4 : chanAlias "channelid" = "chanid" := rfl
  refine ⟨?_, ?_, ?_, ?_, rfl⟩
  · intro hmo
    have hread : adGetItem d "chanid" = adGetItem d "channelid" := by
      cases hA : adLookup d "chanid" with
      | some a =>
        cases hB : adLookup d "channelid" with
        | some b =>
          exfalso
          simp [adAtMostOne, adContains, hA, hB] at hmo
        | none => simp [adGetItem, e1, e2, e3, e4, hA, hB]
      | none =>
        cases hB : adLookup d "channelid" with
        | some b => simp [adGetItem, e1, e2, e3, e4, hA, hB]
        | none => simp [adGetItem, e1, e2, e3, e4, hA, hB]
    exact ⟨hread, hread⟩
  · intro h
    simp [adSetAttr, h]
  · intro h
    simp [adSetAttr, h]
  · intro hmo
    constructor
    · cases hB : adContains d "channelid"
      · have hk : adSetAttr d "chanid" v = dictSet d "chanid" v := by
          simp [adSetAttr, adSetItem, hB, pyLower]
        rw [hk]
        simp [adAtMostOne, adContains_dictSet, hB]
      · have hA : adContains d "chanid" = false := by
          rcases Bool.eq_false_or_eq_true (adContains d "chanid") with h | h
          · exfalso
            simp [adAtMostOne, h, hB] at hmo
          · exact h
        have hk : adSetAttr d "chanid" v = dictSet d "channelid" v := by
          simp [adSetAttr, adSetItem, hB, pyLower]
        rw [hk]
        simp [adAtMostOne, adContains_dictSet, hA]
    · cases hA : adContains d "chanid"
      · have hk : adSetAttr d "channelid" v = dictSet d "channelid" v := by
          simp [adSetAttr, adSetItem, hA, pyLower]
        rw [hk]
        simp [adAtMostOne, adContains_dictSet, hA]
      · have hB : adContains d "channelid" = false := by
          rcases Bool.eq_false_or_eq_true (adContains d "channelid") with h | h
          · exfalso
            simp [adAtMostOne, hA, h] at hmo
          · exact h
        have hk : adSetAttr d "channelid" v = dictSet d "chanid" v := by
          simp [adSetAttr, adSetItem, hA, pyLower]
        rw [hk]
        simp [adAtMostOne, adContains_dictSet, hB]

end TTCom

namespace TTCom

/-- C4 witness: on the record storing only `chanid`, both reads agree, an
attribute write to `channelid` lands on the stored `chanid` key, and the
at-most-one-key property is preserved. -/
theorem spec_C4_alias_witness :
    adGetItem [("chanid", "33")] "chanid" = adGetItem [("chanid", "33")] "channelid" ∧
    adSetAttr [("chanid", "33")] "channelid" "44" = adSetItem [("chanid", "33")] "chanid" "44" ∧
    adAtMostOne (adSetAttr [("chanid", "33")] "channelid" "44") = true :=
  ⟨((spec_C4_alias [("chanid", "33")] "44").1 (by decide)).1,
   (spec_C4_alias [("chanid", "33")] "44").2.1 (by decide),
   ((spec_C4_alias [("chanid", "33")] "44").2.2.2.1 (by decide)).2⟩

end TTCom

namespace TTCom

/-! ## Claim C3 — correlated-send ID cycling (`ttapi.py`, `sendWithWait`)

`sendWithWait` (lines 630–632) executes `self.curID += 1; if self.curID >
self.maxID: self.curID = 1` with `maxID = 127` and `curID` initialised to 0
(lines 348, 353).  `nextCurID` is that step; `curIDAfter k` is the value of
`curID` after `k` successive correlated sends on one session.
-/

def maxID : ℕ := 127

def nextCurID (curID : ℕ) : ℕ :=
  let n := curID + 1
  if n > maxID then 1 else n

def curIDAfter : ℕ → ℕ
  | 0 => 0
  | k + 1 => nextCurID (curIDAfter k)

theorem curIDAfter_formula : ∀ k : ℕ, curIDAfter (k + 1) = k % 127 + 1 := by
  intro k
  induction k with
  | zero => rfl
  | succ k ih =>
    rw [curIDAfter, ih, nextCurID]
    simp only [maxID]
    by_cases h : k % 127 = 126
    · rw [if_pos (by omega)]
      have : (k + 1) % 127 = 0 := by omega
      omega
    · have hlt : k % 127 < 126 := by
        have := Nat.mod_lt k (show 0 < 127 by omega)
        omega
      rw [if_neg (by omega)]
      have : (k + 1) % 127 = k % 127 + 1 := by omega
      omega

/-- C3 (confirmed): starting from a fresh session (`curID = 0`), the `k`-th
correlated send emits `id=(k-1) % 127 + 1`: each send increments `curID` by
one, 127 wraps to 1, the emitted value is always in `1..=127` and never 0,
and the cycle has period 127. -/
theorem spec_C3_id_cycling :
    (∀ n : ℕ, n < 127 → nextCurID n = n + 1) ∧
    nextCurID 127 = 1 ∧
    (∀ k : ℕ, curIDAfter (k + 1) = k % 127 + 1) ∧
    (∀ k : ℕ, 1 ≤ curIDAfter (k + 1) ∧ curIDAfter (k + 1) ≤ 127 ∧ curIDAfter (k + 1) ≠ 0) ∧
    (∀ k : ℕ, curIDAfter (k + 1 + 127) = curIDAfter (k + 1)) := by
  refine ⟨?_, rfl, curIDAfter_formula, ?_, ?_⟩
  · intro n h
    simp only [nextCurID, maxID]
    rw [if_neg (by omega)]
  · intro k
    rw [curIDAfter_formula]
    have := Nat.mod_lt k (show 0 < 127 by omega)
    omega
  · intro k
    rw [curIDAfter_formula, curIDAfter_formula]
    omega

/-- C3 witness: across 300 successive sends the ids cycle: send 1 emits 1,
send 127 emits 127, send 128 emits 1 again, send 300 emits 46, and send 5
stays below 128 and off 0. -/
theorem spec_C3_id_cycling_witness :
    nextCurID 4 = 5 ∧ nextCurID 127 = 1 ∧ curIDAfter 1 = 1 ∧ curIDAfter 127 = 127 ∧
    curIDAfter 128 = 1 ∧ curIDAfter 300 = 46 ∧ curIDAfter 300 ≠ 0 :=
  ⟨spec_C3_id_cycling.1 4 (by decide), spec_C3_id_cycling.2.1,
   (spec_C3_id_cycling.2.2.1 0).trans (by decide),
   (spec_C3_id_cycling.2.2.1 126).trans (by decide),
   (spec_C3_id_cycling.2.2.1 127).trans (by decide),
   (spec_C3_id_cycling.2.2.1 299).trans (by decide),
   (spec_C3_id_cycling.2.2.2.1 299).2.2⟩

end TTCom

namespace TTCom

/-! ## Claim C8 — pinger cadence (`ttapi.py`, `TeamTalkServerConnection.pinger`)

Lines 260–265: `pingtime = float(self.usertimeout)`; `if pingtime < 1:
pingtime = 0.3 elif pingtime < 1.5: pingtime = 0.5 else: pingtime *= 0.75`;
then `time.sleep(pingtime)`.  The arithmetic is modelled over `ℚ` (the
values involved are exact in the claim).
-/

def pingInterval (usertimeout : ℚ) : ℚ :=
  if usertimeout < 1 then 0.3
  else if usertimeout < 1.5 then 0.5
  else usertimeout * 0.75

/-- C8 (confirmed): the sleep interval between keep-alive pings is 0.3 s for
`usertimeout < 1`, 0.5 s for `1 ≤ usertimeout < 1.5`, and `0.75 ×
usertimeout` otherwise; in particular `usertimeout = 60` gives 45 s. -/
theorem spec_C8_pinger_cadence :
    (∀ u : ℚ, u < 1 → pingInterval u = 0.3) ∧
    (∀ u : ℚ, 1 ≤ u → u < 1.5 → pingInterval u = 0.5) ∧
    (∀ u : ℚ, 1.5 ≤ u → pingInterval u = 0.75 * u) ∧
    pingInterval 60 = 45 := by
  refine ⟨?_, ?_, ?_, by norm_num [pingInterval]⟩
  · intro u h
    rw [pingInterval, if_pos h]
  · intro u h1 h2
    rw [pingInterval, if_neg (by linarith), if_pos h2]
  · intro u h
    rw [pingInterval, if_neg (by linarith), if_neg (by linarith)]
    ring

/-- C8 witness: the three regimes at 0.5, 1.2 and 60 (the post-handshake
scenario value, giving the 45-second interval). -/
theorem spec_C8_pinger_cadence_witness :
    pingInterval 0.5 = 0.3 ∧ pingInterval 1.2 = 0.5 ∧ pingInterval 60 = 0.75 * 60 ∧
    pingInterval 60 = 45 :=
  ⟨spec_C8_pinger_cadence.1 0.5 (by norm_num),
   spec_C8_pinger_cadence.2.1 1.2 (by norm_num) (by norm_num),
   spec_C8_pinger_cadence.2.2.1 60 (by norm_num),
   spec_C8_pinger_cadence.2.2.2⟩

/-! ## Claim C9 — reconnect suppression after a kick

`event_kicked` (ttapi.py lines 1655–1663) first formats the kicker's name —
`kicker = self.nonEmptyNickname(parms.kickerid)` (line 1660) — and only then
sets `self.manualCM = (self.autoLogin != 2)` (line 1662).  When the kicked
line carries no `kickerid` parameter, `parms.kickerid` is `None` and
`nonEmptyNickname` reaches `user.get("nickname")` (line 667) on `None`,
raising `AttributeError` — the source's own comment (lines 1658–1659)
documents this as occurring when another instance of the same account logs
in.  The exception propagates (the `except` in `processLine` re-raises), so
line 1662 never runs and `manualCM` keeps its prior value.  When the server
then drops the connection, `event__disconnected_` (lines 1256–1268) runs
`clear()` (which touches neither `manualCM` nor `autoLogin`) and
`_handleRecycling()`; `_handleRecycling` (lines 528–536) starts a 5-second
`threading.Timer` running `login(background=True)` iff
`force or (autoLogin and not manualCM)`.
-/

structure RecycleSt where
  autoLogin : ℕ
  manualCM : Bool
  deriving DecidableEq, Repr

/-- `_handleRecycling(force)`: `some 5` is the 5-second reconnect timer,
`none` means no reconnect is scheduled. -/
def recycleTimer (st : RecycleSt) (force : Bool) : Option ℕ :=
  if force || (st.autoLogin ≠ 0 && !st.manualCM) then some 5 else none

/-- Python truthiness of an optional string (`None` and `""` are falsy). -/
def pyTruthy : Option String → Bool
  | none => false
  | some s => !s.isEmpty

/-- `"%s" % v` for a value that may be `None`. -/
def optStr : Option String → String
  | some s => s
  | none => "None"

def pyStartsWith (s pre : String) : Bool := pre.data.isPrefixOf s.data

/-- `s.rsplit(":", 1)[0]`: everything before the last colon (all of `s`
when there is none). -/
def rsplitColonHead (s : String) : String :=
  if s.data.contains ':' then ⟨((s.data.reverse.dropWhile (· ≠ ':')).tail).reverse⟩
  else s

/-- `AttrDict.get` (tt_attrdict.py lines 54–59) with the default `None`:
lowercase the key; if absent, fall back to the `chanid`/`channelid` alias
partner. -/
def adGet (d : AttrDict) (k : String) : Option String :=
  let k2 := pyLower k
  if adContains d k2 then adLookup d k2
  else adLookup d (chanAlias k2)

/-- `TeamtalkServer.nonEmptyNickname` (lines 651–702) applied to a string
userid with the default flags (`forceDetails=False`, `includeUserType=False`,
`shortenFacebook=False`) — the exact call `event_kicked` makes when
`parms.kickerid` is present.  On a `KeyError` from `self.users[user]` (a plain
dict) the function returns `<userid …>` (lines 660–666); otherwise it formats
nickname/username, falling back to the nameless form with the
`from <ip|UDP udp>` details (lines 674–702; `forceDetails` becomes true
only on that path, and `idIncluded` suppresses the userid suffix). -/
def kickerName (users : List (String × AttrDict)) (uid : String) : String :=
  match List.lookup uid users with
  | none => "<userid " ++ uid ++ ">"
  | some u =>
    let nickname := adGet u "nickname"
    let username := adGet u "username"
    if pyTruthy nickname then
      "\"" ++ nickname.getD "" ++ "\"" ++
        (if pyTruthy username then " (" ++ username.getD "" ++ ")" else "")
    else if pyTruthy username then
      "(" ++ username.getD "" ++ ")"
    else
      let base := "<nameless user " ++ optStr (adGetAttr u "userid") ++ ">"
      let ip0 := adGet u "ipaddr"
      let ip1 :=
        if !pyTruthy ip0 || pyStartsWith (ip0.getD "") "0.0.0.0" then
          let udp := adGet u "udpaddr"
          let udp1 :=
            if !pyTruthy udp || pyStartsWith (udp.getD "") "0.0.0.0" then ""
            else udp.getD ""
          if !udp1.isEmpty then "UDP " ++ rsplitColonHead udp1 else udp1
        else ip0.getD ""
      if !ip1.isEmpty then base ++ " " ++ ("from " ++ ip1) else base

/-- `nonEmptyNickname(parms.kickerid)` as called at line 1660:
`parms.kickerid` is a string when present and `None` when absent; with
`None` the function raises `AttributeError` at `user.get("nickname")`
(line 667), modelled as `none`; with a string it always returns a name. -/
def nonEmptyNicknameKicker (users : List (String × AttrDict)) :
    Option String → Option String
  | none => none
  | some uid => some (kickerName users uid)

/-- `event_kicked` (lines 1655–1663): format the kicker's name, then set
`manualCM = (autoLogin != 2)`; `none` is the `AttributeError` path, on
which `manualCM` is never assigned. -/
def eventKickedStep (users : List (String × AttrDict)) (st : RecycleSt)
    (kickerid : Option String) : Option RecycleSt :=
  (nonEmptyNicknameKicker users kickerid).map fun _ =>
    { st with manualCM := st.autoLogin ≠ 2 }

/-- C9 counterexample: a kicked event without `kickerid` (kick by another
instance of the same account, the case lines 1658–1659 document) raises in
`nonEmptyNickname` before `manualCM` is set, so with `autoLogin = 1` and
`manualCM` still `false` the subsequent disconnect's `_handleRecycling`
schedules the 5-second reconnect — the claim says none is scheduled. -/
theorem spec_C9_counterexample :
    nonEmptyNicknameKicker [] none = none ∧
    eventKickedStep [] ⟨1, false⟩ none = none ∧
    recycleTimer ⟨1, false⟩ false = some 5 := by
  refine ⟨rfl, rfl, by decide⟩

/-- C9 (amended): when the kicked event carries a `kickerid` parameter,
`event_kicked` completes (for any user table — an unknown kicker only
changes the reported name) and sets `manualCM = (autoLogin != 2)`; the
subsequent disconnect then schedules no reconnect with `autoLogin = 1`, and
schedules a background login 5 seconds later with `autoLogin = 2`.  Without
`kickerid` the handler raises before the assignment and suppression fails
(see the counterexample). -/
theorem spec_C9_kick_reconnect (users : List (String × AttrDict))
    (st : RecycleSt) (k : String) :
    (st.autoLogin = 1 →
      eventKickedStep users st (some k) = some { st with manualCM := true } ∧
      recycleTimer { st with manualCM := true } false = none) ∧
    (st.autoLogin = 2 →
      eventKickedStep users st (some k) = some { st with manualCM := false } ∧
      recycleTimer { st with manualCM := false } false = some 5) := by
  constructor
  · intro h
    constructor
    · simp [eventKickedStep, nonEmptyNicknameKicker, h]
    · simp [recycleTimer]
  · intro h
    constructor
    · simp [eventKickedStep, nonEmptyNicknameKicker, h]
    · simp [recycleTimer, h]

/-- C9 witness: both autoLogin settings at a concrete kick carrying
`kickerid="9"`. -/
theorem spec_C9_kick_reconnect_witness :
    eventKickedStep [] ⟨1, false⟩ (some "9") = some ⟨1, true⟩ ∧
    recycleTimer ⟨1, true⟩ false = none ∧
    eventKickedStep [] ⟨2, false⟩ (some "9") = some ⟨2, false⟩ ∧
    recycleTimer ⟨2, false⟩ false = some 5 :=
  ⟨((spec_C9_kick_reconnect [] ⟨1, false⟩ "9").1 rfl).1,
   ((spec_C9_kick_reconnect [] ⟨1, false⟩ "9").1 rfl).2,
   ((spec_C9_kick_reconnect [] ⟨2, false⟩ "9").2 rfl).1,
   ((spec_C9_kick_reconnect [] ⟨2, false⟩ "9").2 rfl).2⟩

/-! ## Claim C10 — silent-level output suppression

`MyTeamtalkServer.outputFromEvent` (TTComCmd.py lines 66–76): return without
output when `silent > 1`; return when `silent` is truthy and this server's
shortname differs from the current server's; otherwise delegate to the base
class, which emits the line.
-/

def outputFromEventEmits (silent : ℕ) (shortname curShortname : String) : Bool :=
  if silent > 1 then false
  else if silent ≠ 0 && shortname ≠ curShortname then false
  else true

/-- C10 (confirmed): an asynchronous event line is suppressed unconditionally
when `silent ≥ 2`; with `silent = 1` it is emitted exactly when the session
is the currently selected server (same shortname); with `silent = 0` it is
always emitted. -/
theorem spec_C10_silent_gate (silent : ℕ) (sn cur : String) :
    (2 ≤ silent → outputFromEventEmits silent sn cur = false) ∧
    (silent = 1 → (outputFromEventEmits silent sn cur = true ↔ sn = cur)) ∧
    (silent = 0 → outputFromEventEmits silent sn cur = true) := by
  refine ⟨?_, ?_, ?_⟩
  · intro h
    rw [outputFromEventEmits, if_pos (by omega)]
  · intro h
    subst h
    rw [outputFromEventEmits, if_neg (by omega)]
    by_cases he : sn = cur
    · simp [he]
    · simp [he]
  · intro h
    subst h
    rw [outputFromEventEmits, if_neg (by omega)]
    simp

/-- C10 witness: all three silent levels at concrete shortnames. -/
theorem spec_C10_silent_gate_witness :
    outputFromEventEmits 2 "a" "a" = false ∧
    (outputFromEventEmits 1 "a" "a" = true ↔ ("a" : String) = "a") ∧
    outputFromEventEmits 0 "a" "b" = true :=
  ⟨(spec_C10_silent_gate 2 "a" "a").1 (by omega),
   (spec_C10_silent_gate 1 "a" "a").2.1 rfl,
   (spec_C10_silent_gate 0 "a" "b").2.2 rfl⟩

end TTCom

namespace TTCom

/-! ## Claim C6 — magical address match (`triggers.py`, `Trigger._matchAddress`)

Lines 171–189.  The four rewriting steps are embedded one per definition;
`re.findall(r'^\[(.*?)]', addr)[0]` raises `IndexError` when `addr`
contains both brackets but does not begin with a `[...]` group, so the
bracket step returns `Option`.
-/

/-- `if "[" in addr and "]" in addr: addr = re.findall(r'^\[(.*?)]', addr)[0]`.
The anchored non-greedy group captures the characters between the leading
`[` and the first `]`; `[0]` of an empty findall result is the crash case. -/
def stripBracketWrapper (addr : List Char) : Option (List Char) :=
  if addr.contains '[' && addr.contains ']' then
    if addr.head? = some '[' ∧ addr.tail.contains ']' then
      some (addr.tail.takeWhile (· ≠ ']'))
    else none
  else some addr

/-- `if not matchval.startswith(":"): addr = re.sub(r'^(?i)::ffff:', '', addr)`:
strip one case-insensitive leading `::ffff:`. -/
def stripFfff (matchval addr : List Char) : List Char :=
  if matchval.head? = some ':' then addr
  else if (addr.take 7).map Char.toLower = "::ffff:".toList then addr.drop 7
  else addr

/-- `addr = re.sub(r':\d+$', '', addr)`: remove a trailing colon followed by
one or more digits. -/
def stripTrailingPort (addr : List Char) : List Char :=
  let rev := addr.reverse
  let ds := rev.takeWhile Char.isDigit
  match rev.dropWhile Char.isDigit with
  | ':' :: before => if ds.isEmpty then addr else before.reverse
  | _ => addr

/-- `if len(matchval.split(".")) < 4: matchval += "."`; Python
`len(s.split("."))` is the dot count plus one. -/
def padMatchval (matchval : List Char) : List Char :=
  if matchval.count '.' + 1 < 4 then matchval ++ ['.'] else matchval

/-- `Trigger._matchAddress` in full; `none` is the `IndexError` crash. -/
def matchAddress (matchval addr : List Char) : Option Bool :=
  match stripBracketWrapper addr with
  | none => none
  | some addr1 =>
    some ((padMatchval matchval).isPrefixOf (stripTrailingPort (stripFfff matchval addr1)))

/-- Modelled from the spec: the bracket-wrapper strip as the claim words it —
remove the wrapper when one is present, otherwise leave the address alone. -/
def specStripBracket (addr : List Char) : List Char :=
  if addr.head? = some '[' ∧ addr.tail.contains ']' then addr.tail.takeWhile (· ≠ ']')
  else addr

/-- Modelled from the spec: the address-match algorithm exactly as the claim
words it — strip a `[...]:port` wrapper when present; unless `re` begins
with `:`, strip a leading `::ffff:`; strip a trailing `:port`; append `.`
to `re` when it has fewer than four dot-separated components; succeed
exactly when the resulting `addr` starts with the resulting `re`. -/
def specMatchAddress (re addr : List Char) : Bool :=
  (padMatchval re).isPrefixOf (stripTrailingPort (stripFfff re (specStripBracket addr)))

/-- C6 counterexample: on an address value containing brackets that do not
form a leading `[...]` wrapper, `_matchAddress` raises `IndexError`
(`re.findall(...)[0]` on an empty list) instead of returning the
prefix-match verdict the claim describes. -/
theorem spec_C6_counterexample :
    matchAddress "10.".toList "a[b]c".toList = none ∧
    specMatchAddress "10.".toList "a[b]c".toList = false := by
  refine ⟨by decide, by decide⟩

/-- C6 (amended): for every match value, and every address value whose
brackets (if any) form a leading `[...]` wrapper — the shape UDP address
parameters take — `_matchAddress` returns exactly the verdict of the
algorithm the claim describes.  On other bracket-containing addresses the
code raises instead of answering (see the counterexample). -/
theorem spec_C6_address_match (re addr : List Char)
    (hwf : (addr.contains '[' && addr.contains ']') = true →
      addr.head? = some '[' ∧ addr.tail.contains ']' = true) :
    matchAddress re addr = some (specMatchAddress re addr) := by
  rw [matchAddress, stripBracketWrapper, specMatchAddress, specStripBracket]
  by_cases hb : (addr.contains '[' && addr.contains ']') = true
  · rw [if_pos hb, if_pos (hwf hb), if_pos (hwf hb)]
  · rw [if_neg hb, if_neg ?hnw]
    case hnw =>
      intro hw
      apply hb
      cases addr with
      | nil => simp at hw
      | cons c rest =>
        simp only [List.head?_cons, Option.some.injEq] at hw
        obtain ⟨h1, h2⟩ := hw
        subst h1
        simp only [List.tail_cons] at h2
        simp only [List.contains_cons, Bool.and_eq_true, Bool.or_eq_true]
        exact ⟨Or.inl (by decide), Or.inr h2⟩

/-- C6 witness: the spec's address-magic scenario — match value `10.0.0.`
against `udpaddr="[::ffff:10.0.0.42]:4432"` — succeeds, and a mismatching
address fails. -/
theorem spec_C6_address_match_witness :
    matchAddress "10.0.0.".toList "[::ffff:10.0.0.42]:4432".toList = some true ∧
    matchAddress "10.0.0.".toList "::ffff:10.1.0.42".toList = some false :=
  ⟨(spec_C6_address_match "10.0.0.".toList "[::ffff:10.0.0.42]:4432".toList
      (fun _ => by decide)).trans (by decide),
   (spec_C6_address_match "10.0.0.".toList "::ffff:10.1.0.42".toList
      (fun h => absurd h (by decide))).trans (by decide)⟩

end TTCom

namespace TTCom

/-! ## Server session line processing (`ttapi.py`, `processLine` /
`_handleCollection`)

`processLine` receives one inbound line, already parsed (`ParmLine(line)`
is deterministic, so the model takes the parsed event keyword and the `id`
parameter directly).  The session state kept here is what the claims
mention: the correlator fields (`_collecting`, `waitID`,
`_outputCollection`) and the in-memory model (`users`, `channels`, `files`,
`info`, `state`).  Event handlers are a lookup table `handlers` (the
`eval("self.event_" + name)` dispatch); each handler may mutate the session
and returns the Python handler's boolean.  Observable side effects of
`processLine` are recorded as a list of `PAction`s.
-/

structure PLine where
  event : String
  idp : Option String
  deriving DecidableEq, Repr

structure ServerModel where
  users : List (String × AttrDict)
  channels : List (String × AttrDict)
  files : List (String × AttrDict)
  info : AttrDict
  state : String
  deriving DecidableEq, Repr

structure Session where
  collecting : ℕ
  waitID : ℕ
  buffer : List PLine
  model : ServerModel
  deriving DecidableEq, Repr

abbrev HandlerFn := Session → PLine → Session × Bool

/-- `TeamtalkServer._handleCollection` (lines 538–595).  Returns the updated
session and whether the line was swallowed (collected or eaten). -/
def handleCollection (s : Session) (p : PLine) : Session × Bool :=
  let isConnect := p.event = "_connected_"
  let isDisconnect := p.event = "_disconnected_"
  if s.collecting = 0 then (s, false)
  else if s.collecting = 1 then
    if p.event = "begin" ∧ p.idp = some (toString s.waitID) then
      ({ s with buffer := [], collecting := 2 }, true)
    else if isConnect ∨ isDisconnect then
      ({ s with collecting := 0, waitID := 0 }, false)
    else (s, false)
  else
    if (isConnect ∨ isDisconnect) ∨ (p.event = "end" ∧ p.idp = some (toString s.waitID)) then
      if isConnect ∨ isDisconnect then
        ({ s with collecting := 0, waitID := 0 }, false)
      else
        ({ s with collecting := 0, waitID := 0 }, true)
    else ({ s with buffer := s.buffer ++ [p] }, true)

/-- The safety check of `processLine` (line 511):
`parmline.event.replace("_", "").isalpha()` — after removing underscores the
keyword must be a non-empty run of letters.  Python's `str.isalpha` accepts
every Unicode letter; `letter` stands for that character classification and
is kept abstract (theorems assume only that it contains the ASCII letters,
which certainly holds for it). -/
def validEventName (letter : Char → Bool) (e : String) : Bool :=
  let r := e.data.filter (· ≠ '_')
  !r.isEmpty && r.all letter

inductive PAction where
  | hookBefore
  | reportInvalid
  | reportUnrecognized
  | dispatch (name : String)
  | outputRaw
  | hookAfter
  deriving DecidableEq, Repr

/-- `TeamtalkServer.processLine` (lines 488–527): collection first; then the
block-marker test, the pre-dispatch hook, the event-name safety check
(`letter` is the `isalpha` character classification, see
`validEventName`), the handler lookup and call, the default raw-line
output, and the post-dispatch hook in a `finally` that only wraps the
handler call. -/
def processLine (letter : Char → Bool) (handlers : String → Option HandlerFn)
    (s : Session) (p : PLine) : Session × List PAction :=
  match handleCollection s p with
  | (s1, true) => (s1, [])
  | (s1, false) =>
    let isMarker := s1.waitID > 0 ∧ (p.event = "begin" ∨ p.event = "end") ∧
      p.idp = some (toString s1.waitID)
    let pre : List PAction := if isMarker then [] else [.hookBefore]
    if validEventName letter p.event = false then (s1, pre ++ [.reportInvalid])
    else
      match handlers p.event with
      | none => (s1, pre ++ [.reportUnrecognized])
      | some h =>
        let r := h s1 p
        (r.1, pre ++ [.dispatch p.event] ++ (if r.2 then [] else [.outputRaw]) ++
          (if isMarker then [] else [.hookAfter]))

/-- `TeamtalkServer.clear` (lines 380–393) restricted to the model fields:
empty the user/channel/file tables and the welcome info, state
`disconnected`; `clear` also resets `waitID` but not `_collecting`. -/
def clearModel : ServerModel :=
  { users := [], channels := [], files := [], info := [], state := "disconnected" }

/-- `TeamtalkServer.event__disconnected_` (lines 1256–1268) at the model
level: report, `clear()`, schedule recycling; returns `True`. -/
def eventDisconnectedH : HandlerFn :=
  fun s _ => ({ s with model := clearModel, waitID := 0 }, true)

/-- A handler table containing the session's real `event__disconnected_`
handler (the only one the counterexamples need). -/
def demoHandlers : String → Option HandlerFn :=
  fun n => if n = "_disconnected_" then some eventDisconnectedH else none

end TTCom

namespace TTCom

/-! ## Claim C2 — correlator exclusivity -/

/-- A concrete logged-in session state mid-collection, for the C2
counterexample. -/
def cexModelC2 : ServerModel :=
  { users := [("5", [("nickname", "x")])], channels := [], files := [],
    info := [], state := "loggedIn" }

def cexSessionC2 : Session :=
  { collecting := 2, waitID := 7, buffer := [], model := cexModelC2 }

/-- C2 counterexample: with a response collection in progress
(`collecting = 2`), an inbound `_disconnected_` line is let through by
`_handleCollection` and dispatched to the session's `event__disconnected_`
handler — an event handler runs while `collecting == 2`, and the line is not
appended to the collection buffer.  (`letter` is instantiated at the ASCII
classification, which agrees with Python's `isalpha` on this all-ASCII
line.) -/
theorem spec_C2_counterexample :
    (processLine Char.isAlpha demoHandlers cexSessionC2
      { event := "_disconnected_", idp := none }).2 =
      [.hookBefore, .dispatch "_disconnected_", .hookAfter] ∧
    PAction.dispatch "_disconnected_" ∈
      (processLine Char.isAlpha demoHandlers cexSessionC2
        { event := "_disconnected_", idp := none }).2 ∧
    (processLine Char.isAlpha demoHandlers cexSessionC2
      { event := "_disconnected_", idp := none }).1.buffer =
      [] := by
  refine ⟨by decide, by decide, by decide⟩

/-- C2 (amended): while `collecting = 2`, every inbound line other than the
synthetic `_connected_`/`_disconnected_` events is withheld from event
dispatch: the terminating `end id=waitID` marker is swallowed (ending the
collection), and every other line is appended to the output-collection
buffer, with no handler invoked and the session model untouched in either
case.  The synthetic connection events abort the collection and are
dispatched normally (see the counterexample). -/
theorem spec_C2_correlator_exclusivity (letter : Char → Bool)
    (handlers : String → Option HandlerFn)
    (s : Session) (p : PLine) (h2 : s.collecting = 2) :
    (p.event ≠ "_connected_" → p.event ≠ "_disconnected_" →
      ¬(p.event = "end" ∧ p.idp = some (toString s.waitID)) →
      processLine letter handlers s p = ({ s with buffer := s.buffer ++ [p] }, [])) ∧
    (p.event = "end" → p.idp = some (toString s.waitID) →
      processLine letter handlers s p =
        ({ s with collecting := 0, waitID := 0 }, [])) := by
  constructor
  · intro hc hd hend
    have hhc : handleCollection s p = ({ s with buffer := s.buffer ++ [p] }, true) := by
      rw [handleCollection]
      simp only [h2]
      rw [if_neg (by omega), if_neg (by omega), if_neg (by simp [hc, hd, hend])]
    rw [processLine, hhc]
  · intro he hid
    have hne1 : p.event ≠ "_connected_" := by rw [he]; decide
    have hne2 : p.event ≠ "_disconnected_" := by rw [he]; decide
    have hhc : handleCollection s p = ({ s with collecting := 0, waitID := 0 }, true) := by
      rw [handleCollection]
      simp only [h2]
      rw [if_neg (by omega), if_neg (by omega),
        if_pos (by simp [hne1, hne2, he, hid]), if_neg (by simp [hne1, hne2])]
    rw [processLine, hhc]

/-- C2 witness: a `useraccount` response row arriving during a collection is
buffered, not dispatched; the closing `end id=7` marker ends the
collection. -/
theorem spec_C2_correlator_exclusivity_witness :
    processLine Char.isAlpha demoHandlers
      { collecting := 2, waitID := 7, buffer := [], model := clearModel }
      { event := "useraccount", idp := none } =
      ({ collecting := 2, waitID := 7,
         buffer := [{ event := "useraccount", idp := none }], model := clearModel }, []) ∧
    processLine Char.isAlpha demoHandlers
      { collecting := 2, waitID := 7, buffer := [], model := clearModel }
      { event := "end", idp := some "7" } =
      ({ collecting := 0, waitID := 0, buffer := [], model := clearModel }, []) :=
  ⟨(spec_C2_correlator_exclusivity Char.isAlpha demoHandlers _ _ rfl).1
      (by decide) (by decide) (by decide),
   (spec_C2_correlator_exclusivity Char.isAlpha demoHandlers _ _ rfl).2 rfl (by decide)⟩

end TTCom

namespace TTCom

/-! ## Claim C7 — event-name safety check -/

/-- C7 counterexample: while a correlated response is being accumulated
(`collecting = 2`), a line whose event keyword contains an illegal character
is appended to the collection buffer like any other line — it is not
reported as invalid (no `reportInvalid` action, no report at all). -/
theorem spec_C7_counterexample :
    processLine Char.isAlpha demoHandlers
      { collecting := 2, waitID := 7, buffer := [], model := clearModel }
      { event := "bad!", idp := none } =
      ({ collecting := 2, waitID := 7, buffer := [{ event := "bad!", idp := none }],
         model := clearModel }, []) ∧
    PAction.reportInvalid ∉
      (processLine Char.isAlpha demoHandlers
        { collecting := 2, waitID := 7, buffer := [], model := clearModel }
        { event := "bad!", idp := none }).2 ∧
    validEventName Char.isAlpha "bad!" = false := by
  refine ⟨by decide, by decide, by decide⟩

/-- C7 (amended): for every inbound line whose parsed event keyword contains
a character other than a letter (any classification of letters containing
at least the ASCII ones — in particular Python's `isalpha`) or an
underscore, `processLine` invokes no event handler and leaves the session
model (users, channels, files, info, state) unchanged, for any handler
table and any session state; when no correlated response is being
accumulated (`collecting` 0 or 1) the line is reported as invalid and
discarded, while under `collecting = 2` it is appended to the collection
buffer without a report. -/
theorem spec_C7_event_name_guard (letter : Char → Bool)
    (hletter : ∀ c : Char, c.isAlpha = true → letter c = true)
    (handlers : String → Option HandlerFn)
    (s : Session) (p : PLine) (hbad : validEventName letter p.event = false) :
    ((processLine letter handlers s p).1.model = s.model ∧
      ∀ n, PAction.dispatch n ∉ (processLine letter handlers s p).2) ∧
    (s.collecting = 0 ∨ s.collecting = 1 →
      processLine letter handlers s p = (s, [.hookBefore, .reportInvalid])) ∧
    (s.collecting = 2 →
      processLine letter handlers s p = ({ s with buffer := s.buffer ++ [p] }, [])) := by
  have hv : ∀ w : String, (w.data.filter (· ≠ '_')).isEmpty = false →
      (w.data.filter (· ≠ '_')).all Char.isAlpha = true →
      validEventName letter w = true := by
    intro w h1 h2
    rw [validEventName]
    simp only [h1, Bool.not_false, Bool.true_and]
    rw [List.all_eq_true] at h2 ⊢
    intro c hc
    exact hletter c (h2 c hc)
  have hne : ∀ w : String, (w.data.filter (· ≠ '_')).isEmpty = false →
      (w.data.filter (· ≠ '_')).all Char.isAlpha = true → p.event ≠ w := by
    intro w h1 h2 he
    rw [he, hv w h1 h2] at hbad
    exact absurd hbad (by decide)
  have hnc : p.event ≠ "_connected_" := hne _ (by decide) (by decide)
  have hnd : p.event ≠ "_disconnected_" := hne _ (by decide) (by decide)
  have hnb : p.event ≠ "begin" := hne _ (by decide) (by decide)
  have hnn : p.event ≠ "end" := hne _ (by decide) (by decide)
  have hcase0 : s.collecting = 0 ∨ s.collecting = 1 →
      processLine letter handlers s p = (s, [.hookBefore, .reportInvalid]) := by
    intro hc
    have hhc : handleCollection s p = (s, false) := by
      rw [handleCollection]
      rcases hc with h | h
      · rw [if_pos h]
      · rw [if_neg (by omega), if_pos h,
          if_neg (by simp [hnb]), if_neg (by simp [hnc, hnd])]
    rw [processLine, hhc]
    simp only []
    have hmark : ¬(s.waitID > 0 ∧ (p.event = "begin" ∨ p.event = "end") ∧
        p.idp = some (toString s.waitID)) := by
      intro hm
      rcases hm.2.1 with h | h
      · exact hnb h
      · exact hnn h
    rw [if_neg hmark, if_pos hbad]
    rfl
  have hcase2 : 2 ≤ s.collecting →
      processLine letter handlers s p = ({ s with buffer := s.buffer ++ [p] }, []) := by
    intro hc
    have hhc : handleCollection s p = ({ s with buffer := s.buffer ++ [p] }, true) := by
      rw [handleCollection]
      rw [if_neg (by omega), if_neg (by omega),
        if_neg (by simp [hnc, hnd, hnn])]
    rw [processLine, hhc]
  refine ⟨?_, hcase0, fun h2 => hcase2 (by omega)⟩
  rcases Nat.lt_or_ge s.collecting 2 with hlt | hge
  · have := hcase0 (by omega)
    rw [this]
    constructor
    · rfl
    · intro n hn
      simp at hn
  · have := hcase2 hge
    rw [this]
    constructor
    · rfl
    · intro n hn
      simp at hn

/-- C7 witness: outside any collection, the line `bad! x=1` is reported
invalid and discarded with the model untouched, for the session's real
handler table. -/
theorem spec_C7_event_name_guard_witness :
    processLine Char.isAlpha demoHandlers
      { collecting := 0, waitID := 0, buffer := [], model := clearModel }
      { event := "bad!", idp := none } =
      ({ collecting := 0, waitID := 0, buffer := [], model := clearModel },
        [.hookBefore, .reportInvalid]) :=
  (spec_C7_event_name_guard Char.isAlpha (fun _ h => h) demoHandlers _ _
    (by decide)).2.1 (Or.inl rfl)

end TTCom

namespace TTCom

/-! ## Claim C5 — `updateParms` status-time stamping (`ttapi.py`, lines 901–916)

`updateParms(category, parms, newParms, silent, preserve)` first copies
`parms` (`oldParms`), optionally rebuilds `parms` from the `preserve` keys
(`parms[k] = oldParms[k]` raises `KeyError` when a preserved key is absent,
hence `Option`), merges with `parms.update(newParms)` (plain `dict.update`,
which bypasses `AttrDict.__setitem__`), recomputes the `channel` path when
`parentid`/`name` warrant it (`_updateChannelValue` writes the single key
`"channel"`; the path value it computes depends on the session's channel
table and is irrelevant to this claim, so it is a parameter `channelPath`),
and then stamps `statustime`:

`if ("statusmode" in newParms or "statusmsg" in newParms) and "statustime"
not in parms: parms["statustime"] = time.time()`.

`now` stands for `time.time()`.
-/

/-- Plain `dict.update`: insert the new pairs in order. -/
def dictUpdate (d n : AttrDict) : AttrDict :=
  n.foldl (fun acc kv => dictSet acc kv.1 kv.2) d

/-- The `preserve` rebuild: `parms.clear()`, then `parms[k] = oldParms[k]`
for each preserved key (`KeyError` → `none`). -/
def preservePhase (old : AttrDict) (preserve : List String) : Option AttrDict :=
  preserve.foldlM (fun acc k => (adLookup old k).map (fun v => adSetItem acc k v)) []

/-- Steps 1–3 of `updateParms`: preserve, merge, channel-path recompute. -/
def mergePhase (parms newParms : AttrDict) (preserve : List String)
    (channelPath : String) : Option AttrDict :=
  let oldParms := parms
  let base : Option AttrDict :=
    if preserve.isEmpty then some parms else preservePhase oldParms preserve
  base.map fun b =>
    let merged := dictUpdate b newParms
    if (adContains newParms "parentid" && adContains oldParms "chanid")
        || adContains newParms "name" then
      adSetItem merged "channel" channelPath
    else merged

/-- `updateParms` steps 1–4 (the diff-report step prints only). -/
def updateParms (parms newParms : AttrDict) (preserve : List String)
    (now channelPath : String) : Option AttrDict :=
  (mergePhase parms newParms preserve channelPath).map fun m =>
    if (adContains newParms "statusmode" || adContains newParms "statusmsg")
        && !(adContains m "statustime") then
      adSetItem m "statustime" now
    else m

/-- C5 counterexample: an incoming `statusmode` equal to the stored one — no
change relative to the old record — still stamps `statustime`, because the
code tests presence in the incoming parameters, not change. -/
theorem spec_C5_counterexample :
    mergePhase [("statusmode", "0")] [("statusmode", "0")] [] "cv" =
      some [("statusmode", "0")] ∧
    adLookup [("statusmode", "0")] "statusmode" = some "0" ∧
    adLookup [("statusmode", "0")] "statustime" = none ∧
    updateParms [("statusmode", "0")] [("statusmode", "0")] [] "T" "cv" =
      some [("statusmode", "0"), ("statustime", "T")] ∧
    adLookup [("statusmode", "0"), ("statustime", "T")] "statustime" = some "T" := by
  refine ⟨by decide, by decide, by decide, by decide, by decide⟩

/-- C5 (amended): after the merge, `statustime` is set to the current time
exactly when `statusmode` or `statusmsg` is present among the incoming
parameters and `statustime` is absent from the merged record; in every other
case the stamping step returns the merged record unchanged.  (Presence in
the incoming parameters — not change relative to the old record — is what
the code tests; see the counterexample.) -/
theorem spec_C5_statustime_stamp (parms newParms : AttrDict) (preserve : List String)
    (now cv : String) (m : AttrDict)
    (hm : mergePhase parms newParms preserve cv = some m) :
    ((adContains newParms "statusmode" || adContains newParms "statusmsg") = true →
      adContains m "statustime" = false →
      updateParms parms newParms preserve now cv = some (adSetItem m "statustime" now) ∧
      adLookup (adSetItem m "statustime" now) "statustime" = some now) ∧
    ((adContains newParms "statusmode" || adContains newParms "statusmsg") = false →
      updateParms parms newParms preserve now cv = some m) ∧
    (adContains m "statustime" = true →
      updateParms parms newParms preserve now cv = some m) := by
  refine ⟨?_, ?_, ?_⟩
  · intro hp ha
    constructor
    · rw [updateParms, hm]
      simp only [Option.map_some']
      rw [if_pos (by rw [hp, ha]; rfl)]
    · rw [adSetItem]
      have : pyLower "statustime" = "statustime" := rfl
      rw [this, adLookup_dictSet]
      rw [if_pos rfl]
  · intro hp
    rw [updateParms, hm]
    simp only [Option.map_some']
    rw [if_neg (by rw [hp]; simp)]
  · intro ha
    rw [updateParms, hm]
    simp only [Option.map_some']
    rw [if_neg (by rw [ha]; simp)]

/-- C5 witness: an incoming `statusmsg` with `statustime` absent stamps the
time; an incoming record touching neither status field leaves the merged
record untouched. -/
theorem spec_C5_statustime_stamp_witness :
    updateParms [("a", "1")] [("statusmsg", "hi")] [] "T" "cv" =
      some (adSetItem [("a", "1"), ("statusmsg", "hi")] "statustime" "T") ∧
    updateParms [("a", "1")] [("b", "2")] [] "T" "cv" = some [("a", "1"), ("b", "2")] :=
  ⟨((spec_C5_statustime_stamp [("a", "1")] [("statusmsg", "hi")] [] "T" "cv"
      [("a", "1"), ("statusmsg", "hi")] (by decide)).1 (by decide) (by decide)).1,
   (spec_C5_statustime_stamp [("a", "1")] [("b", "2")] [] "T" "cv"
      [("a", "1"), ("b", "2")] (by decide)).2.1 (by decide)⟩

end TTCom
